import Mathlib

/-!
Verification of the vietsub-ai-app video-subtitle editor.

The development shallowly embeds the TypeScript sources:
  * `types.ts` — the data model (`SubtitleEntry`, `BlurRegion`, `HistoryState`),
  * `App.tsx` — the per-video session with its undo/redo history,
  * `components/VideoWorkspace.tsx` — active-subtitle resolution, blur-region
    gestures and the voiceover audio cache,
  * `components/SubtitleEditor.tsx` — the subtitle list editor,
  * `services/geminiService.ts` — the `withRetry` wrapper,
  * `utils/srt.ts` — the SRT serializer and parser.

JS numbers are modelled by `ℚ` (times and percent coordinates), strings by
`String` or `List Char`, arrays by lists, and the mutable React state by
explicit state passing.
-/

namespace VietsubApp

/-- `SubtitleEntry` from `types.ts`: times are seconds, `audioUrl` is the
optional voiceover data-URL (`none` models an absent field). -/
structure SubtitleEntry where
  id : String
  startTime : ℚ
  endTime : ℚ
  originalText : String
  translatedText : String
  audioUrl : Option String := none
  deriving DecidableEq, Repr

/-- `BlurRegion` from `types.ts`: normalized percent coordinates. -/
structure BlurRegion where
  x : ℚ
  y : ℚ
  width : ℚ
  height : ℚ
  deriving DecidableEq, Repr

/-- `HistoryState` from `types.ts`: one undo/redo snapshot. -/
structure HistoryState where
  subtitles : List SubtitleEntry
  blurRegions : List BlurRegion
  deriving DecidableEq, Repr

namespace Workspace

/-- `VideoWorkspace.tsx` line 46:
`subtitles.find(s => currentTime >= s.startTime && currentTime <= s.endTime)`.
`Array.prototype.find` returns the first element in list order satisfying the
predicate, or `undefined`. -/
def activeSub (currentTime : ℚ) (subtitles : List SubtitleEntry) : Option SubtitleEntry :=
  subtitles.find? (fun s => decide (s.startTime ≤ currentTime) && decide (currentTime ≤ s.endTime))

end Workspace

namespace Editor

/-- Stable insertion used to model `Array.prototype.sort` with comparator
`(a, b) => a.startTime - b.startTime`: an element is inserted before the first
element with strictly larger key, i.e. after all already-placed elements with
an equal key, which is the stable order ECMAScript mandates. -/
def insertByStartTime (e : SubtitleEntry) : List SubtitleEntry → List SubtitleEntry
  | [] => [e]
  | x :: xs => if e.startTime ≤ x.startTime then e :: x :: xs else x :: insertByStartTime e xs

/-- Model of `[...prev, newSub].sort((a, b) => a.startTime - b.startTime)`:
a stable sort of the whole array by ascending `startTime` (insertion sort is
stable and agrees with every stable sort for this comparator). -/
def sortByStartTime : List SubtitleEntry → List SubtitleEntry
  | [] => []
  | x :: xs => insertByStartTime x (sortByStartTime xs)

/-- The entry `addSub` in `SubtitleEditor.tsx` constructs at playback time
`currentTime`; `Date.now().toString()` is passed in as the prepared string
`nowId`. -/
def newSubAt (currentTime : ℚ) (nowId : String) : SubtitleEntry :=
  { id := nowId
    startTime := currentTime
    endTime := currentTime + 2
    originalText := "Văn bản gốc mới"
    translatedText := "Bản dịch mới" }

/-- `addSub` from `SubtitleEditor.tsx`:
`setSubtitles(prev => [...prev, newSub].sort((a, b) => a.startTime - b.startTime))`. -/
def addSub (prev : List SubtitleEntry) (currentTime : ℚ) (nowId : String) : List SubtitleEntry :=
  sortByStartTime (prev ++ [newSubAt currentTime nowId])

end Editor

/-- The key order `startTime ≤ startTime` the editor sorts by. -/
def leStart (a b : SubtitleEntry) : Prop := a.startTime ≤ b.startTime

namespace App

/-- The per-video slice of `VideoQueueItem` (`types.ts`) that the history
claims are about: the live `(subtitles, blurRegions)` pair, the `history`
array and the `historyIndex` cursor. `historyIndex` is kept as `ℤ`, matching
the untyped JS number. -/
structure Session where
  subtitles : List SubtitleEntry
  blurRegions : List BlurRegion
  history : List HistoryState
  historyIndex : ℤ
  deriving DecidableEq, Repr

/-- JS `array[i]`: `undefined` (`none`) when `i` is negative or past the end. -/
def jsGetElem (l : List α) (i : ℤ) : Option α :=
  if 0 ≤ i then l.get? i.toNat else none

/-- JS `array.slice(0, e)`: a negative `e` counts from the end, and the result
is clamped to the array. -/
def jsSlice0 (l : List α) (e : ℤ) : List α :=
  if e < 0 then l.take ((l.length : ℤ) + e).toNat else l.take e.toNat

/-- The fresh item built by `handleFilesUpload` in `App.tsx`:
`subtitles: [], blurRegions: [], history: [{ subtitles: [], blurRegions: [] }],
historyIndex: 0`. -/
def initialSession : Session :=
  { subtitles := [], blurRegions := [], history := [⟨[], []⟩], historyIndex := 0 }

/-- `pushToHistory` from `App.tsx` (lines 64-77), applied to one item: the
snapshot is `{ subtitles: [...subtitles], blurRegions: [...blurRegions] }`
(spread copies are value-identical lists), the history is truncated at
`historyIndex + 1`, `shift()` drops the oldest snapshot when the truncated
history already holds 50 entries, and the cursor lands on the appended
snapshot. -/
def pushToHistory (item : Session) (subtitles : List SubtitleEntry)
    (blurRegions : List BlurRegion) : Session :=
  let newState : HistoryState := ⟨subtitles, blurRegions⟩
  let newHistory := jsSlice0 item.history (item.historyIndex + 1)
  let newHistory := if 50 ≤ newHistory.length then newHistory.tail else newHistory
  { item with history := newHistory ++ [newState], historyIndex := newHistory.length }

/-- `updateActiveVideo` from `App.tsx` (lines 115-135), restricted to the
`subtitles`/`blurRegions` keys of the `updates` object (`none` models an
absent key). The JS truthiness tests `updates.subtitles || item.subtitles`
pick the update when present (arrays, even empty ones, are truthy), and the
`JSON.stringify` comparison is modelled by structural equality. The inlined
history push is exactly `pushToHistory`. -/
def updateActiveVideo (item : Session) (updSubtitles : Option (List SubtitleEntry))
    (updBlurRegions : Option (List BlurRegion)) : Session :=
  let newItem := { item with
    subtitles := updSubtitles.getD item.subtitles
    blurRegions := updBlurRegions.getD item.blurRegions }
  if updSubtitles.isSome || updBlurRegions.isSome then
    let subtitles := updSubtitles.getD item.subtitles
    let blurRegions := updBlurRegions.getD item.blurRegions
    if subtitles ≠ item.subtitles ∨ blurRegions ≠ item.blurRegions then
      pushToHistory newItem subtitles blurRegions
    else newItem
  else newItem

/-- `undo` from `App.tsx` (lines 79-87): a no-op when the cursor is at the
oldest snapshot, otherwise the cursor moves back one snapshot and the live
pair is restored from it. `none` models the crash JS would hit if
`history[newIdx]` were `undefined`. -/
def undo (item : Session) : Option Session :=
  if item.historyIndex ≤ 0 then some item
  else
    let newIdx := item.historyIndex - 1
    match jsGetElem item.history newIdx with
    | some state => some { item with
        historyIndex := newIdx
        subtitles := state.subtitles
        blurRegions := state.blurRegions }
    | none => none

/-- `redo` from `App.tsx` (lines 89-97): a no-op when the cursor is at the
newest snapshot, otherwise the cursor moves forward one snapshot and the live
pair is restored from it. -/
def redo (item : Session) : Option Session :=
  if (item.history.length : ℤ) - 1 ≤ item.historyIndex then some item
  else
    let newIdx := item.historyIndex + 1
    match jsGetElem item.history newIdx with
    | some state => some { item with
        historyIndex := newIdx
        subtitles := state.subtitles
        blurRegions := state.blurRegions }
    | none => none

/-- The cursor invariant from the spec: `historyIndex ∈ [0, history.length-1]`. -/
def wf (item : Session) : Prop :=
  0 ≤ item.historyIndex ∧ item.historyIndex < (item.history.length : ℤ)

/-- The snapshot under the cursor agrees with the live pair; `App.tsx`
establishes this at upload time and every commit/undo/redo re-establishes it. -/
def synced (item : Session) : Prop :=
  jsGetElem item.history item.historyIndex =
    some ⟨item.subtitles, item.blurRegions⟩

instance : DecidablePred wf := fun item => by unfold wf; infer_instance

instance : DecidablePred synced := fun item => by unfold synced; infer_instance

end App

/-- A concrete entry used by the witnesses below. -/
def sampleEntry : SubtitleEntry := ⟨"s1", 1, 3, "hello", "xin chào", none⟩

namespace Heap

/-- A reference to a mutable JS object: an index into an explicit store. The
store models the live subtitle-entry (or region) objects, so that sharing
between the session's arrays and the history snapshots is observable. -/
abbrev Ref := Nat

/-- In-place mutation of the object behind `r` (e.g. `sub.translatedText = v`
on a live entry object); references are untouched. -/
def mutateRef (store : List α) (r : Ref) (f : α → α) : List α :=
  match store.get? r with
  | some v => store.set r (f v)
  | none => store

/-- The value sequence an array of references denotes in a given store. -/
def viewRefs (store : List α) (refs : List Ref) : List (Option α) :=
  refs.map store.get?

/-- The commit-time copy `[...subtitles]` / `[...blurRegions]` from
`pushToHistory` and the inlined push in `updateActiveVideo` (`App.tsx`
lines 68-69 and 127): the spread builds a fresh array whose elements are the
very same object references as the source array. -/
def spreadArray (arr : List Ref) : List Ref :=
  arr.foldr (fun r acc => r :: acc) []

end Heap

namespace Workspace

/-- A normalized pointer position from `getRelativeCoords` (percent units). -/
structure Point where
  x : ℚ
  y : ℚ
  deriving DecidableEq, Repr

/-- The rectangle tracked while drawing (`handleMouseMove`, drawing branch):
`x/y` are the componentwise minima of the anchor and the pointer, and
`width/height` the absolute differences. -/
def drawnRegion (startPos coords : Point) : BlurRegion :=
  { x := min startPos.x coords.x
    y := min startPos.y coords.y
    width := |coords.x - startPos.x|
    height := |coords.y - startPos.y| }

/-- `handleMouseUp`: the dragged rectangle is committed only when
`width > 0.5 && height > 0.5`, otherwise it is discarded. -/
def commitDraw (regions : List BlurRegion) (startPos coords : Point) : List BlurRegion :=
  let d := drawnRegion startPos coords
  if 1/2 < d.width ∧ 1/2 < d.height then regions ++ [d] else regions

/-- The `move` branch of `handleMouseMove`:
`x = Math.max(0, Math.min(100 - width, coords.x - offset.x))` (same on `y`). -/
def movedRegion (region : BlurRegion) (coords offset : Point) : BlurRegion :=
  { region with
    x := max 0 (min (100 - region.width) (coords.x - offset.x))
    y := max 0 (min (100 - region.height) (coords.y - offset.y)) }

/-- The `resize` branch of `handleMouseMove`:
`width = Math.max(1, coords.x - region.x)` (same on `height`); origin fixed. -/
def resizedRegion (region : BlurRegion) (coords : Point) : BlurRegion :=
  { region with
    width := max 1 (coords.x - region.x)
    height := max 1 (coords.y - region.y) }

/-- `next[regionIdx] = { ...next[regionIdx], x: ..., y: ... }` — the UI only
fires this with a valid `editingIdx`; an out-of-range index is a no-op here. -/
def applyMove (regions : List BlurRegion) (idx : ℕ) (coords offset : Point) :
    List BlurRegion :=
  match regions.get? idx with
  | some region => regions.set idx (movedRegion region coords offset)
  | none => regions

def applyResize (regions : List BlurRegion) (idx : ℕ) (coords : Point) : List BlurRegion :=
  match regions.get? idx with
  | some region => regions.set idx (resizedRegion region coords)
  | none => regions

/-- The delete button: `prev.filter((_, i) => i !== idx)`. -/
def applyRemove (regions : List BlurRegion) (idx : ℕ) : List BlurRegion :=
  regions.eraseIdx idx

/-- One pointer gesture acting on the committed region list. -/
inductive RegionOp where
  | draw (startPos coords : Point)
  | move (idx : ℕ) (coords offset : Point)
  | resize (idx : ℕ) (coords : Point)
  | remove (idx : ℕ)

/-- The pointer lies inside the frame: both normalized coordinates in `[0,100]`. -/
def inFrame (p : Point) : Prop := 0 ≤ p.x ∧ p.x ≤ 100 ∧ 0 ≤ p.y ∧ p.y ≤ 100

instance (p : Point) : Decidable (inFrame p) := by unfold inFrame; infer_instance

/-- The gesture's pointer coordinates lie inside the frame. -/
def validOp : RegionOp → Prop
  | .draw startPos coords => inFrame startPos ∧ inFrame coords
  | .move _ coords _ => inFrame coords
  | .resize _ coords => inFrame coords
  | .remove _ => True

instance (op : RegionOp) : Decidable (validOp op) := by
  cases op <;> unfold validOp <;> infer_instance

def applyOp (regions : List BlurRegion) : RegionOp → List BlurRegion
  | .draw startPos coords => commitDraw regions startPos coords
  | .move idx coords offset => applyMove regions idx coords offset
  | .resize idx coords => applyResize regions idx coords
  | .remove idx => applyRemove regions idx

def runOps (ops : List RegionOp) (regions : List BlurRegion) : List BlurRegion :=
  ops.foldl applyOp regions

/-- The invariant every committed region keeps: coordinates in `[0,100]` and
both sides above the 0.5 minimum (and never above 100). -/
def regionInv (r : BlurRegion) : Prop :=
  0 ≤ r.x ∧ r.x ≤ 100 ∧ 0 ≤ r.y ∧ r.y ≤ 100 ∧
    1/2 < r.width ∧ r.width ≤ 100 ∧ 1/2 < r.height ∧ r.height ≤ 100

end Workspace

namespace Srt

/-- The whitespace class of JS `\\s` and of `String.prototype.trim`: tab,
line feed, vertical tab, form feed, carriage return, space, no-break space
U+00A0, U+1680, the U+2000-U+200A spaces, the U+2028/U+2029 separators,
U+202F, U+205F, ideographic space U+3000 and the BOM U+FEFF. -/
def isSpace (c : Char) : Bool :=
  (0x09 ≤ c.toNat && c.toNat ≤ 0x0d) || c.toNat = 0x20 || c.toNat = 0xa0 ||
  c.toNat = 0x1680 || (0x2000 ≤ c.toNat && c.toNat ≤ 0x200a) ||
  c.toNat = 0x2028 || c.toNat = 0x2029 || c.toNat = 0x202f ||
  c.toNat = 0x205f || c.toNat = 0x3000 || c.toNat = 0xfeff

def isDigitChar (c : Char) : Bool := '0' ≤ c && c ≤ '9'

def digitChar (d : ℕ) : Char := Char.ofNat (48 + d)

def digitVal (c : Char) : ℕ := c.toNat - 48

/-- `Number.prototype.toString` for a nonnegative integer, decimal digits;
`fuel` bounds the recursion and `n + 1` is always enough. -/
def natToStringAux : ℕ → ℕ → List Char
  | 0, _ => []
  | fuel + 1, n =>
    if n < 10 then [digitChar n] else natToStringAux fuel (n / 10) ++ [digitChar (n % 10)]

def natToString (n : ℕ) : List Char := natToStringAux (n + 1) n

/-- `Number.prototype.toString` on an integer (`Math.floor` results). -/
def intToString (i : ℤ) : List Char :=
  if i < 0 then '-' :: natToString (-i).toNat else natToString i.toNat

/-- `String.prototype.padStart(target, pad)`. -/
def padStart (target : ℕ) (pad : Char) (l : List Char) : List Char :=
  List.replicate (target - l.length) pad ++ l

/-- The value of a decimal digit string, most significant digit first. -/
def digitsToNat (l : List Char) : ℕ := l.foldl (fun a c => 10 * a + digitVal c) 0

/-- `String.prototype.trim`. -/
def jsTrim (l : List Char) : List Char :=
  ((l.dropWhile isSpace).reverse.dropWhile isSpace).reverse

/-- `String.prototype.split(c)` on a single-character separator. -/
def splitOnChar (sep : Char) : List Char → List (List Char)
  | [] => [[]]
  | c :: rest =>
    if c = sep then [] :: splitOnChar sep rest
    else
      match splitOnChar sep rest with
      | h :: t => (c :: h) :: t
      | [] => [[c]]

/-- `Array.prototype.join(sep)`. -/
def joinWith (sep : List Char) : List (List Char) → List Char
  | [] => []
  | [b] => b
  | b :: bs => b ++ sep ++ joinWith sep bs

/-- Greedy match of the regex fragment `\\s*\\n` at the head of the input:
returns the remainder after the longest such match, or `none`. Together with a
leading `'\n'` this decides a `split(/\\n\\s*\\n/)` separator. -/
def sepTail : List Char → Option (List Char)
  | [] => none
  | c :: rest =>
    if isSpace c then
      match sepTail rest with
      | some r => some r
      | none => if c = '\n' then some rest else none
    else none

set_option linter.unusedVariables false in
/-- The scanner behind `content.split(/\\n\\s*\\n/)`: at each `'\n'` it tries to
complete a separator match greedily; on a match the accumulated piece is
emitted and scanning restarts after the match. -/
def splitBlankAux (l : List Char) (acc : List Char) : List (List Char) :=
  match l with
  | [] => [acc.reverse]
  | c :: rest =>
    if c = '\n' then
      match hsep : sepTail rest with
      | some r => acc.reverse :: splitBlankAux r []
      | none => splitBlankAux rest (c :: acc)
    else splitBlankAux rest (c :: acc)
  termination_by l.length
  decreasing_by
    · have key : ∀ (l r : List Char), sepTail l = some r → r.length < l.length := by
        intro l
        induction l with
        | nil => intro r h; exact absurd h (by rw [sepTail]; exact Option.noConfusion)
        | cons c2 rest2 ih =>
          intro r2 h
          rw [sepTail] at h
          by_cases hsp : isSpace c2 = true
          · rw [if_pos hsp] at h
            rcases hrec : sepTail rest2 with _ | r3
            · rw [hrec] at h
              by_cases hnl : c2 = '\n'
              · rw [if_pos hnl] at h
                injection h with h
                rw [← h]
                simp
              · rw [if_neg hnl] at h
                exact Option.noConfusion h
            · rw [hrec] at h
              injection h with h
              rw [← h]
              exact lt_trans (ih r3 hrec) (by simp)
          · rw [if_neg hsp] at h
            exact Option.noConfusion h
      exact Nat.lt_succ_of_lt (key rest r hsep)
    · exact Nat.lt_succ_self rest.length
    · exact Nat.lt_succ_self rest.length

/-- `content.split(/\\n\\s*\\n/)`. -/
def splitBlank (l : List Char) : List (List Char) := splitBlankAux l []

/-- `Number(s)` restricted to what the SRT code feeds it: after trimming, a
(possibly empty) all-digit string evaluates to its decimal value; anything
else (which would be `NaN` or needs the full JS number grammar) is `none`. -/
def jsNumber (l : List Char) : Option ℚ :=
  let t := jsTrim l
  if t.all isDigitChar then some ((digitsToNat t : ℕ) : ℚ) else none

/-- `timestampToSeconds` from `utils/srt.ts`: split on `','` and `':'` and
combine `h*3600 + m*60 + s + ms/1000`; a missing piece or non-numeric text
makes the JS result `NaN`, modelled as `none`. -/
def timestampToSeconds (srtTimestamp : List Char) : Option ℚ :=
  match splitOnChar ',' srtTimestamp with
  | [] => none
  | time :: msParts =>
    match splitOnChar ':' time with
    | hPart :: mPart :: sPart :: _ =>
      match jsNumber hPart, jsNumber mPart, jsNumber sPart, msParts.head?.bind jsNumber with
      | some hv, some mv, some sv, some msv => some (hv * 3600 + mv * 60 + sv + msv / 1000)
      | _, _, _, _ => none
    | _ => none

/-- JS `a % b`: `a - b * Math.trunc(a / b)` (remainder keeps the dividend's
sign). -/
def jsMod (a b : ℚ) : ℚ :=
  a - b * (if 0 ≤ a / b then ((⌊a / b⌋ : ℤ) : ℚ) else ((⌈a / b⌉ : ℤ) : ℚ))

/-- `formatTime` from `utils/srt.ts`: `hh:mm:ss,mmm` with `Math.floor` fields
padded to 2/2/2/3 digits. -/
def formatTime (seconds : ℚ) : List Char :=
  padStart 2 '0' (intToString ⌊seconds / 3600⌋) ++
    ':' :: padStart 2 '0' (intToString ⌊jsMod seconds 3600 / 60⌋) ++
    ':' :: padStart 2 '0' (intToString ⌊jsMod seconds 60⌋) ++
    ',' :: padStart 3 '0' (intToString ⌊jsMod seconds 1 * 1000⌋)

/-- The text `generateSRT` emits for an entry:
`entry.translatedText || entry.originalText`. -/
def emittedText (entry : SubtitleEntry) : List Char :=
  (if entry.translatedText = "" then entry.originalText else entry.translatedText).data

/-- The ` --> ` separator of the SRT time line. -/
def arrowChars : List Char := [' ', '-', '-', '>', ' ']

/-- One block of `generateSRT`:
`index+1 \n formatTime(start) --> formatTime(end) \n text \n`. -/
def srtBlock (index : ℕ) (entry : SubtitleEntry) : List Char :=
  natToString (index + 1) ++
    '\n' :: (formatTime entry.startTime ++ arrowChars ++ formatTime entry.endTime) ++
    '\n' :: emittedText entry ++ ['\n']

/-- `generateSRT` from `utils/srt.ts`: blocks joined with `'\n'`. -/
def generateSRT (entries : List SubtitleEntry) : List Char :=
  joinWith ['\n'] (entries.enum.map fun p => srtBlock p.1 p.2)

/-- Match `\\d\\d:\\d\\d:\\d\\d,\\d\\d\\d` at the head; return the 12 matched
characters and the remainder. -/
def matchTimestamp : List Char → Option (List Char × List Char)
  | d1 :: d2 :: c1 :: d3 :: d4 :: c2 :: d5 :: d6 :: c3 :: d7 :: d8 :: d9 :: rest =>
    if isDigitChar d1 && isDigitChar d2 && decide (c1 = ':') &&
        isDigitChar d3 && isDigitChar d4 && decide (c2 = ':') &&
        isDigitChar d5 && isDigitChar d6 && decide (c3 = ',') &&
        isDigitChar d7 && isDigitChar d8 && isDigitChar d9 then
      some ([d1, d2, c1, d3, d4, c2, d5, d6, c3, d7, d8, d9], rest)
    else none
  | _ => none

/-- Match the literal ` --> ` at the head. -/
def matchArrow : List Char → Option (List Char)
  | ' ' :: '-' :: '-' :: '>' :: ' ' :: rest => some rest
  | _ => none

/-- Match the whole time-line regex
`(\\d{2}:\\d{2}:\\d{2},\\d{3}) --> (\\d{2}:\\d{2}:\\d{2},\\d{3})` at the head,
returning the two capture groups. -/
def matchTimePairAt (l : List Char) : Option (List Char × List Char) :=
  match matchTimestamp l with
  | some (t1, rest1) =>
    match matchArrow rest1 with
    | some rest2 =>
      match matchTimestamp rest2 with
      | some (t2, _) => some (t1, t2)
      | none => none
    | none => none
  | none => none

/-- `timeLine.match(regex)`: the leftmost position where the unanchored time
pattern matches. -/
def findTimePair : List Char → Option (List Char × List Char)
  | [] => none
  | c :: rest =>
    match matchTimePairAt (c :: rest) with
    | some p => some p
    | none => findTimePair rest

/-- One iteration of the `blocks.forEach` in `parseSRT`: at least 3 lines, a
time-line match, then push. The timestamps coming out of the regex are always
numeric, so the `none` timestamp branches (JS `NaN`) are unreachable. -/
def parseBlock (index now : ℕ) (block : List Char) : Option SubtitleEntry :=
  match splitOnChar '\n' block with
  | _ :: timeLine :: t :: ts =>
    match findTimePair timeLine with
    | some (ts1, ts2) =>
      match timestampToSeconds ts1, timestampToSeconds ts2 with
      | some st, some en =>
        some { id := String.mk ("srt-".data ++ natToString index ++ "-".data ++ natToString now)
               startTime := st
               endTime := en
               originalText := String.mk (joinWith [' '] (t :: ts))
               translatedText := ""
               audioUrl := none }
      | _, _ => none
    | none => none
  | _ => none

/-- `parseSRT` from `utils/srt.ts`; the single `Date.now()` reading used in
the ids is passed in as `now`. -/
def parseSRT (content : List Char) (now : ℕ) : List SubtitleEntry :=
  (splitBlank (jsTrim content)).enum.filterMap fun p => parseBlock p.1 now p.2

/-- Truncation of a time in seconds to whole milliseconds. -/
def msTrunc (t : ℚ) : ℚ := ((⌊t * 1000⌋ : ℤ) : ℚ) / 1000

/-- Emitted text that survives the round trip: nonempty, free of newlines,
and not ending in whitespace (a trailing-whitespace last line would be eaten
by `trim`, and an all-whitespace line merges into the blank-line separator). -/
def goodText (l : List Char) : Prop :=
  l ≠ [] ∧ '\n' ∉ l ∧ ∀ c, l.getLast? = some c → isSpace c = false

/-- Times representable in the `hh:mm:ss,mmm` format: nonnegative and below
100 hours. -/
def goodTime (t : ℚ) : Prop := 0 ≤ t ∧ t < 360000

def goodEntry (e : SubtitleEntry) : Prop :=
  goodTime e.startTime ∧ goodTime e.endTime ∧ goodText (emittedText e)

/-- The entry `parseSRT` reconstructs from block `index` of the generated
text. -/
def expectedParsed (index now : ℕ) (e : SubtitleEntry) : SubtitleEntry :=
  { id := String.mk ("srt-".data ++ natToString index ++ "-".data ++ natToString now)
    startTime := msTrunc e.startTime
    endTime := msTrunc e.endTime
    originalText := String.mk (emittedText e)
    translatedText := ""
    audioUrl := none }

/-- The twelve characters `hh:mm:ss,mmm` written from the four field values. -/
def tsChars (hn mn sn msn : ℕ) : List Char :=
  [digitChar (hn / 10), digitChar (hn % 10), ':',
    digitChar (mn / 10), digitChar (mn % 10), ':',
    digitChar (sn / 10), digitChar (sn % 10), ',',
    digitChar (msn / 100), digitChar (msn / 10 % 10), digitChar (msn % 10)]

/-- The part of one generated block before its trailing newline. -/
def blockCore (index : ℕ) (e : SubtitleEntry) : List Char :=
  natToString (index + 1) ++
    '\n' :: (formatTime e.startTime ++ arrowChars ++ formatTime e.endTime) ++
    '\n' :: emittedText e

end Srt

namespace Gemini

/-- The error value a rejected service call carries, restricted to the fields
`withRetry` inspects; `none` models an absent (`undefined`) field. -/
structure JsError where
  message : Option String
  status : Option ℤ
  deriving DecidableEq, Repr

/-- `String.prototype.includes`: does `needle` occur contiguously in `hay`? -/
def strIncludes (hay needle : List Char) : Bool :=
  match hay with
  | [] => needle.isEmpty
  | _ :: rest => needle.isPrefixOf hay || strIncludes rest needle

/-- `error.message?.includes(s)`: substring test, `false` when `message` is
absent. -/
def messageIncludes (e : JsError) (s : String) : Bool :=
  match e.message with
  | some m => strIncludes m.data s.data
  | none => false

/-- `error.message?.includes('429') || error.message?.includes('quota') ||
error.status === 429`. -/
def isRateLimit (e : JsError) : Bool :=
  messageIncludes e "429" || messageIncludes e "quota" ||
    (match e.status with
      | some st => decide (st = 429)
      | none => false)

/-- `error.status >= 500`; comparing `undefined` is `false` in JS. -/
def isServerError (e : JsError) : Bool :=
  match e.status with
  | some st => decide (500 ≤ st)
  | none => false

/-- `Math.pow(2, i) * 1000 + Math.random() * 1000`, with the random draw of
attempt `i` supplied from outside as `jitter`. -/
def retryDelay (i : ℕ) (jitter : ℚ) : ℚ := 2 ^ i * 1000 + jitter

/-- The `withRetry` loop from iteration `i` on: the outcome of the call at
attempt `j` is `attempts j`, the random draw is `jitter j`. Returns the result
(`.error none` models throwing the still-`undefined` `lastError`) together
with the list of back-off sleeps performed, in order. -/
def withRetryFrom (attempts : ℕ → Except JsError T) (jitter : ℕ → ℚ)
    (maxRetries i : ℕ) (lastError : Option JsError) :
    Except (Option JsError) T × List ℚ :=
  if _h : i < maxRetries then
    match attempts i with
    | .ok v => (.ok v, [])
    | .error e =>
      if isRateLimit e || isServerError e then
        let rest := withRetryFrom attempts jitter maxRetries (i + 1) (some e)
        (rest.1, retryDelay i (jitter i) :: rest.2)
      else (.error (some e), [])
  else (.error lastError, [])
  termination_by maxRetries - i

/-- `withRetry` from `geminiService.ts` (lines 8-28). -/
def withRetry (attempts : ℕ → Except JsError T) (jitter : ℕ → ℚ)
    (maxRetries : ℕ := 3) : Except (Option JsError) T × List ℚ :=
  withRetryFrom attempts jitter maxRetries 0 none

end Gemini

/-- Retryable sample error: a 429 rate-limit rejection. -/
def rateLimitErr : Gemini.JsError := ⟨some "429 Too Many Requests", some 429⟩

/-- Non-retryable sample error. -/
def authErr : Gemini.JsError := ⟨some "permission denied", some 403⟩

/-- Retryable sample error: a bare 503 with no message. -/
def serverErr : Gemini.JsError := ⟨none, some 503⟩

/-- Attempt outcomes that rate-limit once and then fail non-retryably. -/
def attemptsFailFast : ℕ → Except Gemini.JsError Unit := fun i =>
  match i with
  | 0 => .error rateLimitErr
  | _ => .error authErr

/-- Attempt outcomes that hit a server error on every try. -/
def attemptsExhaust : ℕ → Except Gemini.JsError Unit := fun _ => .error serverErr

namespace Workspace

/-- A playable `Audio` element: its allocation number (object identity) and
the `src` it was constructed from (`new Audio(url)`). -/
structure AudioHandle where
  hid : ℕ
  src : String
  deriving DecidableEq, Repr

/-- The refs the audio-cueing effect owns (`VideoWorkspace.tsx` lines 36-37):
`audioCache` as an insertion-ordered association list, the allocation counter
for `new Audio(...)`, and `activeAudio`. -/
structure AudioState where
  cache : List (String × AudioHandle)
  nextId : ℕ
  active : Option AudioHandle
  deriving DecidableEq, Repr

/-- `Map.prototype.get`. -/
def lookupCache (cache : List (String × AudioHandle)) (key : String) :
    Option AudioHandle :=
  (cache.find? (fun kv => decide (kv.1 = key))).map Prod.snd

/-- `Map.prototype.set`: overwrite an existing key in place, else append. -/
def setCache (cache : List (String × AudioHandle)) (key : String) (h : AudioHandle) :
    List (String × AudioHandle) :=
  match cache with
  | [] => [(key, h)]
  | kv :: rest => if kv.1 = key then (key, h) :: rest else kv :: setCache rest key h

/-- `activeAudio.current?.src === url`. -/
def activeSrcIs (st : AudioState) (url : String) : Bool :=
  match st.active with
  | some a => decide (a.src = url)
  | none => false

/-- The audio-cueing effect (`VideoWorkspace.tsx` lines 52-77) as a state
transformer on the refs, given the already-resolved active subtitle: clear the
active handle when there is no active subtitle or its `audioUrl` is falsy
(absent or empty); return unchanged when the active handle already plays that
`audioUrl`; otherwise look the `audioUrl` up in the cache and, on a miss,
allocate a fresh handle and store it under the `audioUrl`. -/
def cueAudio (st : AudioState) (activeSub : Option SubtitleEntry) : AudioState :=
  match activeSub with
  | none => { st with active := none }
  | some sub =>
    match sub.audioUrl with
    | none => { st with active := none }
    | some url =>
      if url = "" then { st with active := none }
      else if activeSrcIs st url then st
      else
        match lookupCache st.cache url with
        | some audio => { st with active := some audio }
        | none =>
          let audio : AudioHandle := ⟨st.nextId, url⟩
          { cache := setCache st.cache url audio, nextId := st.nextId + 1,
            active := some audio }

end Workspace

theorem insertByStartTime_perm (e : SubtitleEntry) (l : List SubtitleEntry) :
    (Editor.insertByStartTime e l).Perm (e :: l) := by
  induction l with
  | nil => simp [Editor.insertByStartTime]
  | cons x xs ih =>
    by_cases h : e.startTime ≤ x.startTime
    · simp [Editor.insertByStartTime, h]
    · simp only [Editor.insertByStartTime, if_neg h]
      exact (ih.cons x).trans (List.Perm.swap e x xs)

theorem insertByStartTime_sorted (e : SubtitleEntry) (l : List SubtitleEntry)
    (hl : l.Sorted leStart) : (Editor.insertByStartTime e l).Sorted leStart := by
  induction l with
  | nil => simp [Editor.insertByStartTime, List.Sorted]
  | cons x xs ih =>
    rcases List.sorted_cons.mp hl with ⟨hx, hxs⟩
    by_cases h : e.startTime ≤ x.startTime
    · rw [Editor.insertByStartTime, if_pos h]
      refine List.sorted_cons.mpr ⟨?_, hl⟩
      intro b hb
      rcases List.mem_cons.mp hb with hb | hb
      · rw [hb]; exact h
      · exact le_trans h (hx b hb)
    · rw [Editor.insertByStartTime, if_neg h]
      refine List.sorted_cons.mpr ⟨?_, ih hxs⟩
      intro b hb
      have hmem := (insertByStartTime_perm e xs).mem_iff.mp hb
      rcases List.mem_cons.mp hmem with hb' | hb'
      · rw [hb']; exact le_of_lt (lt_of_not_le h)
      · exact hx b hb'

theorem sortByStartTime_sorted (l : List SubtitleEntry) :
    (Editor.sortByStartTime l).Sorted leStart := by
  induction l with
  | nil => simp [Editor.sortByStartTime, List.Sorted]
  | cons x xs ih => exact insertByStartTime_sorted x _ ih

theorem sortByStartTime_perm (l : List SubtitleEntry) :
    (Editor.sortByStartTime l).Perm l := by
  induction l with
  | nil => simp [Editor.sortByStartTime]
  | cons x xs ih => exact (insertByStartTime_perm x _).trans (ih.cons x)

/-- C10: the subtitle editor's add operation inserts a new entry with
`startTime = currentTime` and `endTime = currentTime + 2`, and re-sorts the
entire subtitle list in ascending `startTime` order, so after every add the
whole list is sorted by `startTime` even if it was unsorted before. -/
theorem C10_addSub_sorted_insert (prev : List SubtitleEntry) (currentTime : ℚ) (nowId : String) :
    (Editor.addSub prev currentTime nowId).Sorted leStart ∧
      (Editor.addSub prev currentTime nowId).Perm
        (Editor.newSubAt currentTime nowId :: prev) ∧
      (Editor.newSubAt currentTime nowId).startTime = currentTime ∧
      (Editor.newSubAt currentTime nowId).endTime = currentTime + 2 := by
  refine ⟨sortByStartTime_sorted _, ?_, rfl, rfl⟩
  exact (sortByStartTime_perm _).trans (List.perm_append_singleton _ _)

/-- C4: the active-subtitle resolver returns the first entry in list order
with `startTime ≤ t ≤ endTime` (closed on both ends), or none when no entry
matches; on `[{0,2,"a"}, {2,4,"b"}]` at `t = 2` it returns the `"a"` entry. -/
theorem C4_activeSub_first_match (t : ℚ) (l : List SubtitleEntry) :
    (Workspace.activeSub t l = none ↔ ∀ s ∈ l, ¬(s.startTime ≤ t ∧ t ≤ s.endTime)) ∧
      (∀ s, Workspace.activeSub t l = some s →
        (s.startTime ≤ t ∧ t ≤ s.endTime) ∧
          ∃ l₁ l₂, l = l₁ ++ s :: l₂ ∧ ∀ x ∈ l₁, ¬(x.startTime ≤ t ∧ t ≤ x.endTime)) ∧
      Workspace.activeSub 2 [⟨"1", 0, 2, "a", "", none⟩, ⟨"2", 2, 4, "b", "", none⟩] =
        some ⟨"1", 0, 2, "a", "", none⟩ := by
  refine ⟨?_, ?_, by decide⟩
  · rw [Workspace.activeSub, List.find?_eq_none]
    constructor
    · intro h s hs hP
      exact h s hs (by simp [hP.1, hP.2])
    · intro h s hs hb
      exact h s hs (by simpa using hb)
  · intro s hs
    rw [Workspace.activeSub] at hs
    induction l with
    | nil => simp at hs
    | cons x xs ih =>
      rw [List.find?_cons] at hs
      by_cases hx : (decide (x.startTime ≤ t) && decide (t ≤ x.endTime)) = true
      · simp only [hx] at hs
        have hxs : x = s := by injection hs
        subst hxs
        refine ⟨by simpa using hx, [], xs, rfl, by simp⟩
      · rw [Bool.not_eq_true] at hx
        simp only [hx] at hs
        rcases ih hs with ⟨hP, l₁, l₂, heq, hmiss⟩
        refine ⟨hP, x :: l₁, l₂, by rw [heq]; rfl, ?_⟩
        intro y hy
        rcases List.mem_cons.mp hy with hy | hy
        · subst hy
          intro hc
          simp [hc.1, hc.2] at hx
        · exact hmiss y hy

namespace App

theorem jsGetElem_natCast (l : List α) (n : ℕ) : jsGetElem l (n : ℤ) = l[n]? := by
  simp [jsGetElem]

theorem jsSlice0_natCast (l : List α) (n : ℕ) : jsSlice0 l (n : ℤ) = l.take n := by
  simp [jsSlice0]

/-- Commit with a changed pair is exactly the inlined history push. -/
theorem updateActiveVideo_changed (item : Session) (subs : List SubtitleEntry)
    (regs : List BlurRegion) (hch : subs ≠ item.subtitles ∨ regs ≠ item.blurRegions) :
    updateActiveVideo item (some subs) (some regs) =
      pushToHistory { item with subtitles := subs, blurRegions := regs } subs regs := by
  simp only [updateActiveVideo, Option.getD_some, Option.isSome_some, Bool.or_self,
    if_true, if_pos hch]

/-- Structure of the pushed history: the truncated prefix `tr`, the appended
snapshot, and the cursor on it. -/
theorem pushToHistory_desc (item : Session) (subs : List SubtitleEntry)
    (regs : List BlurRegion) (n : ℕ) (hidx : item.historyIndex = (n : ℤ))
    (hn : n < item.history.length) :
    ∃ tr : List HistoryState,
      pushToHistory item subs regs =
        { item with history := tr ++ [⟨subs, regs⟩], historyIndex := (tr.length : ℤ) } ∧
      1 ≤ tr.length ∧
      tr[tr.length - 1]? = item.history[n]? ∧
      ((¬ 50 ≤ n + 1 ∧ tr = item.history.take (n + 1) ∧ tr.length = n + 1) ∨
        (50 ≤ n + 1 ∧ tr = (item.history.take (n + 1)).tail ∧ tr.length = n)) := by
  have hslice : jsSlice0 item.history (item.historyIndex + 1) = item.history.take (n + 1) := by
    rw [hidx]
    have : (n : ℤ) + 1 = ((n + 1 : ℕ) : ℤ) := by push_cast; ring
    rw [this, jsSlice0_natCast]
  have hlen : (item.history.take (n + 1)).length = n + 1 := by
    rw [List.length_take]
    omega
  by_cases hcap : 50 ≤ n + 1
  · refine ⟨(item.history.take (n + 1)).tail, ?_, ?_, ?_, Or.inr ⟨hcap, rfl, ?_⟩⟩
    · rw [pushToHistory]
      simp only [hslice, hlen, if_pos hcap]
    · simp only [List.length_tail, hlen]
      omega
    · have hlt : (item.history.take (n + 1)).tail.length = n := by
        simp only [List.length_tail, hlen]
        omega
      rw [hlt, List.getElem?_tail, List.getElem?_take]
      have hn1 : n - 1 + 1 = n := by omega
      rw [hn1, if_pos (Nat.lt_succ_self n)]
    · simp only [List.length_tail, hlen]
      omega
  · refine ⟨item.history.take (n + 1), ?_, ?_, ?_, Or.inl ⟨hcap, rfl, hlen⟩⟩
    · rw [pushToHistory]
      simp only [hslice, hlen, if_neg hcap]
    · omega
    · rw [hlen, List.getElem?_take]
      simp

/-- C6: committing a `(subtitles, regions)` pair structurally equal to the
session's current values is a no-op on the history: neither the history
sequence nor the cursor index changes. -/
theorem C6_commit_identical_noop (item : Session) :
    (updateActiveVideo item (some item.subtitles) (some item.blurRegions)).history =
        item.history ∧
      (updateActiveVideo item (some item.subtitles) (some item.blurRegions)).historyIndex =
        item.historyIndex := by
  have hguard : ¬(item.subtitles ≠ item.subtitles ∨ item.blurRegions ≠ item.blurRegions) := by
    simp
  simp only [updateActiveVideo, Option.getD_some, Option.isSome_some, Bool.or_self,
    if_true, if_neg hguard]
  exact ⟨trivial, trivial⟩

/-- Evaluation of `undo` on a session whose cursor sits at `n ≥ 1`. -/
theorem undo_spec (item : Session) (n : ℕ) (st : HistoryState)
    (hidx : item.historyIndex = (n : ℤ)) (h1 : 1 ≤ n)
    (hget : item.history[n - 1]? = some st) :
    undo item = some ⟨st.subtitles, st.blurRegions, item.history, ((n - 1 : ℕ) : ℤ)⟩ := by
  rw [undo]
  have hguard : ¬ item.historyIndex ≤ 0 := by rw [hidx]; omega
  rw [if_neg hguard]
  have hcast : item.historyIndex - 1 = ((n - 1 : ℕ) : ℤ) := by rw [hidx]; omega
  rw [hcast]
  simp only [jsGetElem_natCast, hget]

/-- Evaluation of `redo` on a session whose cursor is not at the end. -/
theorem redo_spec (item : Session) (n : ℕ) (st : HistoryState)
    (hidx : item.historyIndex = (n : ℤ)) (hn : n + 1 < item.history.length)
    (hget : item.history[n + 1]? = some st) :
    redo item = some ⟨st.subtitles, st.blurRegions, item.history, ((n + 1 : ℕ) : ℤ)⟩ := by
  rw [redo]
  have hguard : ¬ (item.history.length : ℤ) - 1 ≤ item.historyIndex := by
    rw [hidx]; omega
  rw [if_neg hguard]
  have hcast : item.historyIndex + 1 = ((n + 1 : ℕ) : ℤ) := by rw [hidx]; omega
  rw [hcast]
  simp only [jsGetElem_natCast, hget]

/-- C1: immediately after a commit of a changed pair, `undo` restores the live
`(subtitles, regions)` to the snapshot current before the commit (the pair of
commit N−1), and `redo` with no intervening commit restores the committed pair
`undo` replaced. -/
theorem C1_undo_redo_roundtrip (item : Session) (subs : List SubtitleEntry)
    (regs : List BlurRegion) (hwf : wf item) (hsync : synced item)
    (hch : subs ≠ item.subtitles ∨ regs ≠ item.blurRegions) :
    ∃ afterUndo afterRedo : Session,
      undo (updateActiveVideo item (some subs) (some regs)) = some afterUndo ∧
      afterUndo.subtitles = item.subtitles ∧
      afterUndo.blurRegions = item.blurRegions ∧
      redo afterUndo = some afterRedo ∧
      afterRedo.subtitles = subs ∧
      afterRedo.blurRegions = regs := by
  obtain ⟨hge, hlt⟩ := hwf
  set n := item.historyIndex.toNat with hn
  have hidx : item.historyIndex = (n : ℤ) := (Int.toNat_of_nonneg hge).symm
  have hnlen : n < item.history.length := by omega
  obtain ⟨tr, hpush, htr1, htrlast, _⟩ := pushToHistory_desc
    { item with subtitles := subs, blurRegions := regs } subs regs n hidx hnlen
  rw [updateActiveVideo_changed item subs regs hch, hpush]
  have hlastsync : tr[tr.length - 1]? = some ⟨item.subtitles, item.blurRegions⟩ := by
    rw [htrlast]
    have := hsync
    rw [synced, hidx, jsGetElem_natCast] at this
    exact this
  have hgetUndo : (tr ++ [(⟨subs, regs⟩ : HistoryState)])[tr.length - 1]? =
      some ⟨item.subtitles, item.blurRegions⟩ := by
    rw [List.getElem?_append, if_pos (by omega)]
    exact hlastsync
  have hu := undo_spec ⟨subs, regs, tr ++ [⟨subs, regs⟩], (tr.length : ℤ)⟩
    tr.length ⟨item.subtitles, item.blurRegions⟩ rfl htr1 hgetUndo
  have hgetRedo : (tr ++ [(⟨subs, regs⟩ : HistoryState)])[(tr.length - 1) + 1]? =
      some ⟨subs, regs⟩ := by
    have hsucc : tr.length - 1 + 1 = tr.length := by omega
    rw [hsucc, List.getElem?_append_right (le_refl _)]
    simp
  have hr := redo_spec
    ⟨item.subtitles, item.blurRegions, tr ++ [⟨subs, regs⟩], ((tr.length - 1 : ℕ) : ℤ)⟩
    (tr.length - 1) ⟨subs, regs⟩ rfl (by simp; omega) hgetRedo
  exact ⟨_, _, hu, rfl, rfl, hr, rfl, rfl⟩

/-- Commit with an unchanged pair leaves history and cursor untouched. -/
theorem updateActiveVideo_unchanged (item : Session) (subs : List SubtitleEntry)
    (regs : List BlurRegion) (hch : ¬(subs ≠ item.subtitles ∨ regs ≠ item.blurRegions)) :
    (updateActiveVideo item (some subs) (some regs)).history = item.history ∧
      (updateActiveVideo item (some subs) (some regs)).historyIndex = item.historyIndex := by
  simp only [updateActiveVideo, Option.getD_some, Option.isSome_some, Bool.or_self,
    if_true, if_neg hch]
  exact ⟨trivial, trivial⟩

theorem undo_wf (item item2 : Session) (hwf : wf item) (h : undo item = some item2) :
    wf item2 := by
  obtain ⟨hge, hlt⟩ := hwf
  rw [undo] at h
  by_cases hguard : item.historyIndex ≤ 0
  · rw [if_pos hguard] at h
    injection h with h
    rw [← h]
    exact ⟨hge, hlt⟩
  · rw [if_neg hguard] at h
    rcases heq : jsGetElem item.history (item.historyIndex - 1) with _ | st
    · simp only [heq] at h
      exact Option.noConfusion h
    · simp only [heq] at h
      injection h with h
      rw [← h]
      exact ⟨show (0 : ℤ) ≤ item.historyIndex - 1 by omega,
        show item.historyIndex - 1 < (item.history.length : ℤ) by omega⟩

theorem redo_wf (item item2 : Session) (hwf : wf item) (h : redo item = some item2) :
    wf item2 := by
  obtain ⟨hge, hlt⟩ := hwf
  rw [redo] at h
  by_cases hguard : (item.history.length : ℤ) - 1 ≤ item.historyIndex
  · rw [if_pos hguard] at h
    injection h with h
    rw [← h]
    exact ⟨hge, hlt⟩
  · rw [if_neg hguard] at h
    rcases heq : jsGetElem item.history (item.historyIndex + 1) with _ | st
    · simp only [heq] at h
      exact Option.noConfusion h
    · simp only [heq] at h
      injection h with h
      rw [← h]
      exact ⟨show (0 : ℤ) ≤ item.historyIndex + 1 by omega,
        show item.historyIndex + 1 < (item.history.length : ℤ) by omega⟩

/-- C2: across commits the history never exceeds 50 snapshots; a commit that
would exceed the cap drops the oldest snapshot (index 0) and leaves the cursor
numerically one lower than the uncapped push would, still pointing at the
newly committed snapshot; and commit, `undo` and `redo` all keep the cursor
inside `[0, history.length - 1]`. -/
theorem C2_history_cap_eviction (item : Session) (subs : List SubtitleEntry)
    (regs : List BlurRegion) (hwf : wf item) (hcap : item.history.length ≤ 50) :
    (updateActiveVideo item (some subs) (some regs)).history.length ≤ 50 ∧
      wf (updateActiveVideo item (some subs) (some regs)) ∧
      ((subs ≠ item.subtitles ∨ regs ≠ item.blurRegions) →
        50 ≤ item.historyIndex + 1 →
        (updateActiveVideo item (some subs) (some regs)).history =
            item.history.tail ++ [⟨subs, regs⟩] ∧
          (updateActiveVideo item (some subs) (some regs)).historyIndex =
            item.historyIndex ∧
          jsGetElem (updateActiveVideo item (some subs) (some regs)).history
              (updateActiveVideo item (some subs) (some regs)).historyIndex =
            some ⟨subs, regs⟩) ∧
      (∀ item2, undo item = some item2 → wf item2) ∧
      (∀ item2, redo item = some item2 → wf item2) := by
  obtain ⟨hge, hlt⟩ := hwf
  have hidx : item.historyIndex = ((item.historyIndex.toNat : ℕ) : ℤ) :=
    (Int.toNat_of_nonneg hge).symm
  set n := item.historyIndex.toNat with hn
  have hnlen : n < item.history.length := by omega
  by_cases hch : subs ≠ item.subtitles ∨ regs ≠ item.blurRegions
  · obtain ⟨tr, hpush, htr1, _, hcases⟩ := pushToHistory_desc
      { item with subtitles := subs, blurRegions := regs } subs regs n hidx hnlen
    rw [updateActiveVideo_changed item subs regs hch, hpush]
    refine ⟨?_, ⟨Int.natCast_nonneg _, by simp⟩, ?_, fun i2 h => undo_wf item i2 ⟨hge, hlt⟩ h,
      fun i2 h => redo_wf item i2 ⟨hge, hlt⟩ h⟩
    · rcases hcases with ⟨hsm, _, hlen⟩ | ⟨hbig, _, hlen⟩ <;> simp [hlen] <;> omega
    · intro _ hevict
      have h50 : 50 ≤ n + 1 := by omega
      rcases hcases with ⟨hsm, _, _⟩ | ⟨_, htail, hlen⟩
      · exact absurd h50 hsm
      have hlen50 : item.history.length = 50 := by omega
      have htake : item.history.take (n + 1) = item.history :=
        List.take_of_length_le (by omega)
      have htail2 : tr = item.history.tail := by rw [htail, htake]
      have htaillen : item.history.tail.length = 49 := by
        simp [List.length_tail, hlen50]
      refine ⟨by rw [htail2], ?_, ?_⟩
      · show ((tr.length : ℕ) : ℤ) = item.historyIndex
        rw [hlen]
        exact hidx.symm
      · show jsGetElem (tr ++ [(⟨subs, regs⟩ : HistoryState)]) ((tr.length : ℕ) : ℤ) =
          some ⟨subs, regs⟩
        rw [jsGetElem_natCast, List.getElem?_append_right (le_refl _)]
        simp
  · obtain ⟨hh, hi⟩ := updateActiveVideo_unchanged item subs regs hch
    refine ⟨by rw [hh]; exact hcap, ⟨by rw [hi]; exact hge, by rw [hh, hi]; exact hlt⟩,
      fun h _ => absurd h hch, fun i2 h => undo_wf item i2 ⟨hge, hlt⟩ h,
      fun i2 h => redo_wf item i2 ⟨hge, hlt⟩ h⟩

end App

theorem C1_undo_redo_roundtrip_witness :
    ∃ afterUndo afterRedo : App.Session,
      App.undo (App.updateActiveVideo App.initialSession (some [sampleEntry]) (some [])) =
        some afterUndo ∧
      afterUndo.subtitles = App.initialSession.subtitles ∧
      afterUndo.blurRegions = App.initialSession.blurRegions ∧
      App.redo afterUndo = some afterRedo ∧
      afterRedo.subtitles = [sampleEntry] ∧
      afterRedo.blurRegions = [] :=
  App.C1_undo_redo_roundtrip App.initialSession [sampleEntry] [] (by decide) (by decide)
    (Or.inl (by decide))

theorem C2_history_cap_eviction_witness :
    (App.updateActiveVideo App.initialSession (some [sampleEntry]) (some [])).history.length ≤
        50 ∧
      App.wf (App.updateActiveVideo App.initialSession (some [sampleEntry]) (some [])) ∧
      (([sampleEntry] ≠ App.initialSession.subtitles ∨
          ([] : List BlurRegion) ≠ App.initialSession.blurRegions) →
        50 ≤ App.initialSession.historyIndex + 1 →
        (App.updateActiveVideo App.initialSession (some [sampleEntry]) (some [])).history =
            App.initialSession.history.tail ++ [⟨[sampleEntry], []⟩] ∧
          (App.updateActiveVideo App.initialSession (some [sampleEntry])
                (some [])).historyIndex =
            App.initialSession.historyIndex ∧
          App.jsGetElem
              (App.updateActiveVideo App.initialSession (some [sampleEntry])
                  (some [])).history
              (App.updateActiveVideo App.initialSession (some [sampleEntry])
                  (some [])).historyIndex =
            some ⟨[sampleEntry], []⟩) ∧
      (∀ item2, App.undo App.initialSession = some item2 → App.wf item2) ∧
      (∀ item2, App.redo App.initialSession = some item2 → App.wf item2) :=
  App.C2_history_cap_eviction App.initialSession [sampleEntry] [] (by decide) (by decide)

namespace Heap

theorem spreadArray_eq (arr : List Ref) : spreadArray arr = arr := by
  induction arr with
  | nil => rfl
  | cons r rs ih =>
    show r :: spreadArray rs = r :: rs
    rw [ih]

theorem mutateRef_get?_self (store : List α) (r : Ref) (f : α → α) (v : α)
    (hv : store.get? r = some v) : (mutateRef store r f).get? r = some (f v) := by
  obtain ⟨hlt, _⟩ := List.get?_eq_some.mp hv
  rw [mutateRef, hv, List.get?_eq_getElem?, List.getElem?_set_self (by simpa using hlt)]

end Heap

/-- C3 fails on the code: the commit-time copy is the shallow `[...subtitles]`
spread, so a stored snapshot holds the same entry objects as the live array;
mutating a live entry in place after the commit changes what the snapshot
denotes. Concretely, with one entry shared between the live array and a fresh
snapshot, an in-place edit of `translatedText` is visible through the
snapshot. -/
theorem C3_counterexample :
    Heap.spreadArray [0] = [0] ∧
      Heap.viewRefs
          (Heap.mutateRef [sampleEntry] 0 (fun e => { e with translatedText := "edited" }))
          (Heap.spreadArray [0]) ≠
        Heap.viewRefs [sampleEntry] (Heap.spreadArray [0]) := by
  decide

/-- C3 amended: a history snapshot is a fresh top-level array that shares
every element reference with the committed array (a shallow copy), so an
actual in-place mutation of any shared entry or region object is visible in
the stored snapshot. -/
theorem C3_amended_shallow_snapshot (store : List α) (subtitles : List Heap.Ref)
    (r : Heap.Ref) (f : α → α) (v : α) (hr : r ∈ subtitles)
    (hv : store.get? r = some v) (hf : f v ≠ v) :
    Heap.spreadArray subtitles = subtitles ∧
      Heap.viewRefs (Heap.mutateRef store r f) (Heap.spreadArray subtitles) ≠
        Heap.viewRefs store subtitles := by
  refine ⟨Heap.spreadArray_eq subtitles, ?_⟩
  rw [Heap.spreadArray_eq]
  intro h
  obtain ⟨i, hi, hget⟩ := List.getElem_of_mem hr
  have h1 : (Heap.viewRefs (Heap.mutateRef store r f) subtitles)[i]? =
      (Heap.viewRefs store subtitles)[i]? := by rw [h]
  rw [Heap.viewRefs, Heap.viewRefs, List.getElem?_map, List.getElem?_map,
    List.getElem?_eq_getElem hi, hget] at h1
  simp only [Option.map_some'] at h1
  rw [Heap.mutateRef_get?_self store r f v hv, hv] at h1
  exact hf (by injection h1 with h1; injection h1)

theorem C3_amended_shallow_snapshot_witness :
    Heap.spreadArray [0] = [0] ∧
      Heap.viewRefs
          (Heap.mutateRef [sampleEntry] 0 (fun e => { e with translatedText := "edited" }))
          (Heap.spreadArray [0]) ≠
        Heap.viewRefs [sampleEntry] [0] :=
  C3_amended_shallow_snapshot [sampleEntry] [0] 0
    (fun e => { e with translatedText := "edited" }) sampleEntry (by decide) (by decide)
    (by decide)

namespace Workspace

theorem commitDraw_inv (regions : List BlurRegion) (startPos coords : Point)
    (hs : inFrame startPos) (hc : inFrame coords)
    (hregs : ∀ r ∈ regions, regionInv r) :
    ∀ r ∈ commitDraw regions startPos coords, regionInv r := by
  intro r hr
  rw [commitDraw] at hr
  obtain ⟨hsx0, hsx1, hsy0, hsy1⟩ := hs
  obtain ⟨hcx0, hcx1, hcy0, hcy1⟩ := hc
  by_cases hmin : 1/2 < (drawnRegion startPos coords).width ∧
      1/2 < (drawnRegion startPos coords).height
  · rw [if_pos hmin] at hr
    rcases List.mem_append.mp hr with hr | hr
    · exact hregs r hr
    · have hrd : r = drawnRegion startPos coords := by simpa using hr
      subst hrd
      obtain ⟨hw, hh⟩ := hmin
      refine ⟨le_min hsx0 hcx0, min_le_of_left_le hsx1, le_min hsy0 hcy0,
        min_le_of_left_le hsy1, hw, ?_, hh, ?_⟩
      · rw [drawnRegion, abs_sub_le_iff]
        constructor <;> linarith
      · rw [drawnRegion, abs_sub_le_iff]
        constructor <;> linarith
  · rw [if_neg hmin] at hr
    exact hregs r hr

theorem movedRegion_inv (region : BlurRegion) (coords offset : Point)
    (hreg : regionInv region) : regionInv (movedRegion region coords offset) := by
  obtain ⟨hx0, hx1, hy0, hy1, hw0, hw1, hh0, hh1⟩ := hreg
  refine ⟨le_max_left _ _, ?_, le_max_left _ _, ?_, hw0, hw1, hh0, hh1⟩
  · exact max_le (by norm_num) (le_trans (min_le_left _ _) (by linarith))
  · exact max_le (by norm_num) (le_trans (min_le_left _ _) (by linarith))

theorem resizedRegion_inv (region : BlurRegion) (coords : Point)
    (hc : inFrame coords) (hreg : regionInv region) :
    regionInv (resizedRegion region coords) := by
  obtain ⟨hx0, hx1, hy0, hy1, hw0, hw1, hh0, hh1⟩ := hreg
  obtain ⟨hcx0, hcx1, hcy0, hcy1⟩ := hc
  refine ⟨hx0, hx1, hy0, hy1,
    lt_of_lt_of_le (show (1 : ℚ)/2 < 1 by norm_num) (le_max_left _ _), ?_,
    lt_of_lt_of_le (show (1 : ℚ)/2 < 1 by norm_num) (le_max_left _ _), ?_⟩
  · exact max_le (by norm_num) (by linarith)
  · exact max_le (by norm_num) (by linarith)

theorem applyOp_inv (regions : List BlurRegion) (op : RegionOp) (hop : validOp op)
    (hregs : ∀ r ∈ regions, regionInv r) : ∀ r ∈ applyOp regions op, regionInv r := by
  cases op with
  | draw startPos coords => exact commitDraw_inv regions startPos coords hop.1 hop.2 hregs
  | move idx coords offset =>
    intro r hr
    rw [applyOp, applyMove] at hr
    rcases hg : regions.get? idx with _ | region
    · rw [hg] at hr
      exact hregs r hr
    · rw [hg] at hr
      rcases List.mem_or_eq_of_mem_set hr with hr | hr
      · exact hregs r hr
      · rw [hr]
        exact movedRegion_inv region coords offset
          (hregs region (List.get?_mem hg))
  | resize idx coords =>
    intro r hr
    rw [applyOp, applyResize] at hr
    rcases hg : regions.get? idx with _ | region
    · rw [hg] at hr
      exact hregs r hr
    · rw [hg] at hr
      rcases List.mem_or_eq_of_mem_set hr with hr | hr
      · exact hregs r hr
      · rw [hr]
        exact resizedRegion_inv region coords hop (hregs region (List.get?_mem hg))
  | remove idx =>
    intro r hr
    exact hregs r (List.mem_of_mem_eraseIdx hr)

theorem runOps_inv (ops : List RegionOp) (regions : List BlurRegion)
    (hops : ∀ op ∈ ops, validOp op) (hregs : ∀ r ∈ regions, regionInv r) :
    ∀ r ∈ runOps ops regions, regionInv r := by
  induction ops generalizing regions with
  | nil => exact hregs
  | cons op ops ih =>
    exact ih _ (fun o ho => hops o (List.mem_cons_of_mem op ho))
      (applyOp_inv regions op (hops op (List.mem_cons_self op ops)) hregs)

end Workspace

/-- C5: every gesture sequence with in-frame pointer coordinates keeps each
committed region's `x, y, width, height` inside `[0,100]` with both sides
above the minimum threshold; a drawn rectangle not exceeding 0.5 units on both
axes is discarded; moving clamps the origin so the whole rectangle stays in
`[0,100]` on each axis without changing its size; resizing floors `width` and
`height` at 1 with the origin fixed. -/
theorem C5_region_bounds (ops : List Workspace.RegionOp)
    (hops : ∀ op ∈ ops, Workspace.validOp op) :
    (∀ r ∈ Workspace.runOps ops [], Workspace.regionInv r) ∧
      (∀ (regions : List BlurRegion) (startPos coords : Workspace.Point),
        (Workspace.drawnRegion startPos coords).width ≤ 1/2 →
        (Workspace.drawnRegion startPos coords).height ≤ 1/2 →
        Workspace.commitDraw regions startPos coords = regions) ∧
      (∀ (region : BlurRegion) (coords offset : Workspace.Point),
        Workspace.regionInv region →
        0 ≤ (Workspace.movedRegion region coords offset).x ∧
          (Workspace.movedRegion region coords offset).x +
              (Workspace.movedRegion region coords offset).width ≤ 100 ∧
          0 ≤ (Workspace.movedRegion region coords offset).y ∧
          (Workspace.movedRegion region coords offset).y +
              (Workspace.movedRegion region coords offset).height ≤ 100 ∧
          (Workspace.movedRegion region coords offset).width = region.width ∧
          (Workspace.movedRegion region coords offset).height = region.height) ∧
      (∀ (region : BlurRegion) (coords : Workspace.Point),
        (Workspace.resizedRegion region coords).x = region.x ∧
          (Workspace.resizedRegion region coords).y = region.y ∧
          1 ≤ (Workspace.resizedRegion region coords).width ∧
          1 ≤ (Workspace.resizedRegion region coords).height) := by
  refine ⟨Workspace.runOps_inv ops [] hops (by simp), ?_, ?_, ?_⟩
  · intro regions startPos coords hw hh
    rw [Workspace.commitDraw, if_neg]
    intro hcon
    exact absurd hw (not_le.mpr hcon.1)
  · intro region coords offset hreg
    obtain ⟨hx0, hx1, hy0, hy1, hw0, hw1, hh0, hh1⟩ := hreg
    refine ⟨le_max_left _ _, ?_, le_max_left _ _, ?_, rfl, rfl⟩
    · have h1 : max 0 (min (100 - region.width) (coords.x - offset.x)) ≤
          100 - region.width :=
        max_le (by linarith) (min_le_left _ _)
      show max 0 (min (100 - region.width) (coords.x - offset.x)) + region.width ≤ 100
      linarith
    · have h1 : max 0 (min (100 - region.height) (coords.y - offset.y)) ≤
          100 - region.height :=
        max_le (by linarith) (min_le_left _ _)
      show max 0 (min (100 - region.height) (coords.y - offset.y)) + region.height ≤ 100
      linarith
  · intro region coords
    exact ⟨rfl, rfl, le_max_left _ _, le_max_left _ _⟩

theorem C5_region_bounds_witness :
    (∀ r ∈ Workspace.runOps
        [Workspace.RegionOp.draw ⟨10, 10⟩ ⟨30, 20⟩,
          Workspace.RegionOp.move 0 ⟨50, 50⟩ ⟨5, 5⟩,
          Workspace.RegionOp.resize 0 ⟨80, 80⟩,
          Workspace.RegionOp.remove 1] [], Workspace.regionInv r) ∧
      (∀ (regions : List BlurRegion) (startPos coords : Workspace.Point),
        (Workspace.drawnRegion startPos coords).width ≤ 1/2 →
        (Workspace.drawnRegion startPos coords).height ≤ 1/2 →
        Workspace.commitDraw regions startPos coords = regions) ∧
      (∀ (region : BlurRegion) (coords offset : Workspace.Point),
        Workspace.regionInv region →
        0 ≤ (Workspace.movedRegion region coords offset).x ∧
          (Workspace.movedRegion region coords offset).x +
              (Workspace.movedRegion region coords offset).width ≤ 100 ∧
          0 ≤ (Workspace.movedRegion region coords offset).y ∧
          (Workspace.movedRegion region coords offset).y +
              (Workspace.movedRegion region coords offset).height ≤ 100 ∧
          (Workspace.movedRegion region coords offset).width = region.width ∧
          (Workspace.movedRegion region coords offset).height = region.height) ∧
      (∀ (region : BlurRegion) (coords : Workspace.Point),
        (Workspace.resizedRegion region coords).x = region.x ∧
          (Workspace.resizedRegion region coords).y = region.y ∧
          1 ≤ (Workspace.resizedRegion region coords).width ∧
          1 ≤ (Workspace.resizedRegion region coords).height) :=
  C5_region_bounds
    [Workspace.RegionOp.draw ⟨10, 10⟩ ⟨30, 20⟩,
      Workspace.RegionOp.move 0 ⟨50, 50⟩ ⟨5, 5⟩,
      Workspace.RegionOp.resize 0 ⟨80, 80⟩,
      Workspace.RegionOp.remove 1] (by decide)

namespace Srt

theorem sepTail_length : ∀ (l r : List Char), sepTail l = some r → r.length < l.length := by
  intro l
  induction l with
  | nil => intro r h; exact absurd h (by rw [sepTail]; exact Option.noConfusion)
  | cons c rest ih =>
    intro r h
    rw [sepTail] at h
    by_cases hsp : isSpace c = true
    · rw [if_pos hsp] at h
      rcases hrec : sepTail rest with _ | r2
      · rw [hrec] at h
        by_cases hnl : c = '\n'
        · rw [if_pos hnl] at h
          injection h with h
          rw [← h]
          simp
        · rw [if_neg hnl] at h
          exact Option.noConfusion h
      · rw [hrec] at h
        injection h with h
        rw [← h]
        exact lt_trans (ih r2 hrec) (by simp)
    · rw [if_neg hsp] at h
      exact Option.noConfusion h

theorem natToStringAux_lt10 (fuel n : ℕ) (hf : 0 < fuel) (hn : n < 10) :
    natToStringAux fuel n = [digitChar n] := by
  match fuel, hf with
  | f + 1, _ => rw [natToStringAux, if_pos hn]

theorem natToString_lt10 (n : ℕ) (hn : n < 10) : natToString n = [digitChar n] :=
  natToStringAux_lt10 (n + 1) n (by omega) hn

theorem natToString_two_digit (n : ℕ) (h10 : 10 ≤ n) (hn : n < 100) :
    natToString n = [digitChar (n / 10), digitChar (n % 10)] := by
  rw [natToString]
  match n, h10, hn with
  | n + 10, _, hn =>
    rw [natToStringAux, if_neg (by omega)]
    rw [natToStringAux_lt10 _ _ (by omega) (by omega)]
    rfl

theorem natToString_three_digit (n : ℕ) (h100 : 100 ≤ n) (hn : n < 1000) :
    natToString n = [digitChar (n / 100), digitChar (n / 10 % 10), digitChar (n % 10)] := by
  rw [natToString]
  match n, h100, hn with
  | n + 100, _, hn =>
    rw [natToStringAux, if_neg (by omega)]
    rw [natToStringAux, if_neg (by omega)]
    rw [natToStringAux_lt10 _ _ (by omega) (by omega)]
    have h1 : (n + 100) / 10 / 10 = (n + 100) / 100 := Nat.div_div_eq_div_mul _ 10 10
    rw [h1]
    rfl

theorem intToString_ofNat (n : ℕ) : intToString (n : ℤ) = natToString n := by
  rw [intToString, if_neg (by omega)]
  norm_num

/-- The two padded digits of a number below 100. -/
theorem pad2_eq (n : ℕ) (hn : n < 100) :
    padStart 2 '0' (natToString n) = [digitChar (n / 10), digitChar (n % 10)] := by
  by_cases h10 : n < 10
  · rw [natToString_lt10 n h10, padStart]
    have hd : n / 10 = 0 := by omega
    have hm : n % 10 = n := by omega
    rw [hd, hm]
    rfl
  · rw [natToString_two_digit n (by omega) hn, padStart]
    rfl

/-- The three padded digits of a number below 1000. -/
theorem pad3_eq (n : ℕ) (hn : n < 1000) :
    padStart 3 '0' (natToString n) =
      [digitChar (n / 100), digitChar (n / 10 % 10), digitChar (n % 10)] := by
  by_cases h10 : n < 10
  · rw [natToString_lt10 n h10, padStart]
    have h1 : n / 100 = 0 := by omega
    have h2 : n / 10 % 10 = 0 := by omega
    have h3 : n % 10 = n := by omega
    rw [h1, h2, h3]
    rfl
  · by_cases h100 : n < 100
    · rw [natToString_two_digit n (by omega) h100, padStart]
      have h1 : n / 100 = 0 := by omega
      have h2 : n / 10 % 10 = n / 10 := by omega
      rw [h1, h2]
      rfl
    · rw [natToString_three_digit n (by omega) hn, padStart]
      rfl

theorem digitChar_isDigit : ∀ d, d < 10 → isDigitChar (digitChar d) = true := by decide

theorem digitChar_val : ∀ d, d < 10 → digitVal (digitChar d) = d := by decide

theorem digitChar_not_space : ∀ d, d < 10 → isSpace (digitChar d) = false := by decide

theorem digitChar_ne_newline : ∀ d, d < 10 → digitChar d ≠ '\n' := by decide

theorem digitChar_ne_comma : ∀ d, d < 10 → digitChar d ≠ ',' := by decide

theorem digitChar_ne_colon : ∀ d, d < 10 → digitChar d ≠ ':' := by decide

theorem jsNumber_pair : ∀ a, a < 10 → ∀ b, b < 10 →
    jsNumber [digitChar a, digitChar b] = some (((10 * a + b : ℕ) : ℚ)) := by decide

theorem jsNumber_triple : ∀ a, a < 10 → ∀ b, b < 10 → ∀ c, c < 10 →
    jsNumber [digitChar a, digitChar b, digitChar c] =
      some (((100 * a + 10 * b + c : ℕ) : ℚ)) := by decide

theorem jsMod_spec (t b : ℚ) (ht : 0 ≤ t) (hb : 0 < b) :
    jsMod t b = t - b * ((⌊t / b⌋ : ℤ) : ℚ) ∧ 0 ≤ jsMod t b ∧ jsMod t b < b := by
  have heq : jsMod t b = t - b * ((⌊t / b⌋ : ℤ) : ℚ) := by
    rw [jsMod, if_pos (div_nonneg ht hb.le)]
  have hfract : t - b * ((⌊t / b⌋ : ℤ) : ℚ) = b * Int.fract (t / b) := by
    rw [Int.fract]
    field_simp
  refine ⟨heq, ?_, ?_⟩
  · rw [heq, hfract]
    exact mul_nonneg hb.le (Int.fract_nonneg _)
  · rw [heq, hfract]
    calc b * Int.fract (t / b) < b * 1 :=
          mul_lt_mul_of_pos_left (Int.fract_lt_one _) hb
      _ = b := mul_one b

/-- The four `Math.floor` fields of `formatTime` on a good time, and the fact
that reading them back recovers the time truncated to milliseconds. -/
theorem formatTime_fields (t : ℚ) (ht : goodTime t) :
    ∃ hn mn sn msn : ℕ, hn < 100 ∧ mn < 60 ∧ sn < 60 ∧ msn < 1000 ∧
      formatTime t = tsChars hn mn sn msn ∧
      (hn : ℚ) * 3600 + (mn : ℚ) * 60 + (sn : ℚ) + (msn : ℚ) / 1000 = msTrunc t := by
  obtain ⟨ht0, ht1⟩ := ht
  obtain ⟨hmod3600, hmod3600_0, hmod3600_1⟩ := jsMod_spec t 3600 ht0 (by norm_num)
  obtain ⟨hmod60, hmod60_0, hmod60_1⟩ := jsMod_spec t 60 ht0 (by norm_num)
  obtain ⟨hmod1, hmod1_0, hmod1_1⟩ := jsMod_spec t 1 ht0 (by norm_num)
  have hH0 : 0 ≤ ⌊t / 3600⌋ := Int.floor_nonneg.mpr (div_nonneg ht0 (by norm_num))
  have hH100 : ⌊t / 3600⌋ < 100 := by
    rw [Int.floor_lt]
    push_cast
    rw [div_lt_iff₀ (by norm_num)]
    linarith
  have hM0 : 0 ≤ ⌊t / 60⌋ := Int.floor_nonneg.mpr (div_nonneg ht0 (by norm_num))
  have hT0 : 0 ≤ ⌊t⌋ := Int.floor_nonneg.mpr ht0
  have hK0 : 0 ≤ ⌊t * 1000⌋ := Int.floor_nonneg.mpr (by positivity)
  have hmfloor : ⌊jsMod t 3600 / 60⌋ = ⌊t / 60⌋ - 60 * ⌊t / 3600⌋ := by
    rw [hmod3600]
    have hdiv : (t - 3600 * ((⌊t / 3600⌋ : ℤ) : ℚ)) / 60 =
        t / 60 - ((60 * ⌊t / 3600⌋ : ℤ) : ℚ) := by
      push_cast
      ring
    rw [hdiv, Int.floor_sub_int]
  have hmrange : 0 ≤ ⌊t / 60⌋ - 60 * ⌊t / 3600⌋ ∧ ⌊t / 60⌋ - 60 * ⌊t / 3600⌋ < 60 := by
    rw [← hmfloor]
    constructor
    · exact Int.floor_nonneg.mpr (div_nonneg hmod3600_0 (by norm_num))
    · rw [Int.floor_lt]
      push_cast
      rw [div_lt_iff₀ (by norm_num)]
      linarith
  have hsfloor : ⌊jsMod t 60⌋ = ⌊t⌋ - 60 * ⌊t / 60⌋ := by
    rw [hmod60]
    have hsub : t - 60 * ((⌊t / 60⌋ : ℤ) : ℚ) = t - ((60 * ⌊t / 60⌋ : ℤ) : ℚ) := by
      push_cast
      ring
    rw [hsub, Int.floor_sub_int]
  have hsrange : 0 ≤ ⌊t⌋ - 60 * ⌊t / 60⌋ ∧ ⌊t⌋ - 60 * ⌊t / 60⌋ < 60 := by
    rw [← hsfloor]
    constructor
    · exact Int.floor_nonneg.mpr hmod60_0
    · rw [Int.floor_lt]
      push_cast
      linarith
  have hmsfloor : ⌊jsMod t 1 * 1000⌋ = ⌊t * 1000⌋ - 1000 * ⌊t⌋ := by
    have h1 : jsMod t 1 = t - ((⌊t⌋ : ℤ) : ℚ) := by
      rw [hmod1]
      norm_num
    rw [h1]
    have h2 : (t - ((⌊t⌋ : ℤ) : ℚ)) * 1000 = t * 1000 - ((1000 * ⌊t⌋ : ℤ) : ℚ) := by
      push_cast
      ring
    rw [h2, Int.floor_sub_int]
  have hmsrange : 0 ≤ ⌊t * 1000⌋ - 1000 * ⌊t⌋ ∧ ⌊t * 1000⌋ - 1000 * ⌊t⌋ < 1000 := by
    rw [← hmsfloor]
    constructor
    · exact Int.floor_nonneg.mpr (by positivity)
    · rw [Int.floor_lt]
      push_cast
      linarith
  obtain ⟨hn, hhn⟩ : ∃ hn : ℕ, ⌊t / 3600⌋ = (hn : ℤ) := ⟨⌊t / 3600⌋.toNat, by omega⟩
  obtain ⟨mn, hmn⟩ : ∃ mn : ℕ, ⌊t / 60⌋ - 60 * ⌊t / 3600⌋ = (mn : ℤ) :=
    ⟨(⌊t / 60⌋ - 60 * ⌊t / 3600⌋).toNat, by omega⟩
  obtain ⟨sn, hsn⟩ : ∃ sn : ℕ, ⌊t⌋ - 60 * ⌊t / 60⌋ = (sn : ℤ) :=
    ⟨(⌊t⌋ - 60 * ⌊t / 60⌋).toNat, by omega⟩
  obtain ⟨msn, hmsn⟩ : ∃ msn : ℕ, ⌊t * 1000⌋ - 1000 * ⌊t⌋ = (msn : ℤ) :=
    ⟨(⌊t * 1000⌋ - 1000 * ⌊t⌋).toNat, by omega⟩
  refine ⟨hn, mn, sn, msn, by omega, by omega, by omega, by omega, ?_, ?_⟩
  · rw [formatTime, hmfloor, hsfloor, hmsfloor, hmn, hsn, hmsn, hhn]
    rw [intToString_ofNat, intToString_ofNat, intToString_ofNat, intToString_ofNat]
    rw [pad2_eq _ (by omega), pad2_eq _ (by omega), pad2_eq _ (by omega),
      pad3_eq _ (by omega), tsChars]
    rfl
  · have q1 : ((⌊t / 3600⌋ : ℤ) : ℚ) = (hn : ℚ) := by exact_mod_cast hhn
    have q2 : ((⌊t / 60⌋ : ℤ) : ℚ) - 60 * ((⌊t / 3600⌋ : ℤ) : ℚ) = (mn : ℚ) := by
      exact_mod_cast hmn
    have q3 : ((⌊t⌋ : ℤ) : ℚ) - 60 * ((⌊t / 60⌋ : ℤ) : ℚ) = (sn : ℚ) := by
      exact_mod_cast hsn
    have q4 : ((⌊t * 1000⌋ : ℤ) : ℚ) - 1000 * ((⌊t⌋ : ℤ) : ℚ) = (msn : ℚ) := by
      exact_mod_cast hmsn
    rw [msTrunc]
    field_simp
    linarith [q1, q2, q3, q4]

theorem splitOnChar_not_mem (sep : Char) (a : List Char) (ha : sep ∉ a) :
    splitOnChar sep a = [a] := by
  induction a with
  | nil => rfl
  | cons c rest ih =>
    rw [splitOnChar, if_neg (by intro h; exact ha (by rw [h]; exact List.mem_cons_self _ _))]
    rw [ih (fun h => ha (List.mem_cons_of_mem c h))]

theorem splitOnChar_append (sep : Char) (a rest : List Char) (ha : sep ∉ a) :
    splitOnChar sep (a ++ sep :: rest) = a :: splitOnChar sep rest := by
  induction a with
  | nil => rw [List.nil_append, splitOnChar, if_pos rfl]
  | cons c a2 ih =>
    rw [List.cons_append, splitOnChar,
      if_neg (by intro h; exact ha (by rw [h]; exact List.mem_cons_self _ _))]
    rw [ih (fun h => ha (List.mem_cons_of_mem c h))]

theorem tsChars_no_comma_eight (hn mn sn : ℕ) (h1 : hn < 100) (h2 : mn < 60)
    (h3 : sn < 60) :
    (',' : Char) ∉ [digitChar (hn / 10), digitChar (hn % 10), ':',
      digitChar (mn / 10), digitChar (mn % 10), ':',
      digitChar (sn / 10), digitChar (sn % 10)] := by
  intro hmem
  have hd : ∀ d, d < 10 → ¬ (',' : Char) = digitChar d := fun d hd h =>
    digitChar_ne_comma d hd h.symm
  simp only [List.mem_cons, List.not_mem_nil, or_false] at hmem
  rcases hmem with h | h | h | h | h | h | h | h
  all_goals first
    | exact hd _ (by omega) h
    | exact absurd h (by decide)

theorem timestampToSeconds_tsChars (hn mn sn msn : ℕ) (h1 : hn < 100) (h2 : mn < 60)
    (h3 : sn < 60) (h4 : msn < 1000) :
    timestampToSeconds (tsChars hn mn sn msn) =
      some ((hn : ℚ) * 3600 + (mn : ℚ) * 60 + (sn : ℚ) + (msn : ℚ) / 1000) := by
  have hsplit1 : splitOnChar ',' (tsChars hn mn sn msn) =
      [[digitChar (hn / 10), digitChar (hn % 10), ':',
          digitChar (mn / 10), digitChar (mn % 10), ':',
          digitChar (sn / 10), digitChar (sn % 10)],
        [digitChar (msn / 100), digitChar (msn / 10 % 10), digitChar (msn % 10)]] := by
    have hshape : tsChars hn mn sn msn =
        [digitChar (hn / 10), digitChar (hn % 10), ':',
            digitChar (mn / 10), digitChar (mn % 10), ':',
            digitChar (sn / 10), digitChar (sn % 10)] ++
          ',' :: [digitChar (msn / 100), digitChar (msn / 10 % 10), digitChar (msn % 10)] := by
      rw [tsChars]
      rfl
    rw [hshape, splitOnChar_append _ _ _ (tsChars_no_comma_eight hn mn sn h1 h2 h3)]
    rw [splitOnChar_not_mem]
    intro hmem
    have hd : ∀ d, d < 10 → ¬ (',' : Char) = digitChar d := fun d hd h =>
      digitChar_ne_comma d hd h.symm
    simp only [List.mem_cons, List.not_mem_nil, or_false] at hmem
    rcases hmem with h | h | h
    all_goals exact hd _ (by omega) h
  have hnocolon2 : ∀ a b : ℕ, a < 10 → b < 10 →
      (':' : Char) ∉ [digitChar a, digitChar b] := by
    intro a b ha hb hmem
    have hd : ∀ d, d < 10 → ¬ (':' : Char) = digitChar d := fun d hd h =>
      digitChar_ne_colon d hd h.symm
    simp only [List.mem_cons, List.not_mem_nil, or_false] at hmem
    rcases hmem with h | h
    · exact hd _ ha h
    · exact hd _ hb h
  have hsplit2 : splitOnChar ':'
      [digitChar (hn / 10), digitChar (hn % 10), ':',
        digitChar (mn / 10), digitChar (mn % 10), ':',
        digitChar (sn / 10), digitChar (sn % 10)] =
      [[digitChar (hn / 10), digitChar (hn % 10)],
        [digitChar (mn / 10), digitChar (mn % 10)],
        [digitChar (sn / 10), digitChar (sn % 10)]] := by
    have hshape : [digitChar (hn / 10), digitChar (hn % 10), ':',
        digitChar (mn / 10), digitChar (mn % 10), ':',
        digitChar (sn / 10), digitChar (sn % 10)] =
        [digitChar (hn / 10), digitChar (hn % 10)] ++
          ':' :: ([digitChar (mn / 10), digitChar (mn % 10)] ++
            ':' :: [digitChar (sn / 10), digitChar (sn % 10)]) := by rfl
    rw [hshape, splitOnChar_append _ _ _ (hnocolon2 _ _ (by omega) (by omega)),
      splitOnChar_append _ _ _ (hnocolon2 _ _ (by omega) (by omega)),
      splitOnChar_not_mem _ _ (hnocolon2 _ _ (by omega) (by omega))]
  rw [timestampToSeconds, hsplit1]
  dsimp only
  rw [hsplit2]
  dsimp only
  simp only [List.head?_cons, Option.some_bind]
  rw [jsNumber_pair _ (by omega) _ (by omega), jsNumber_pair _ (by omega) _ (by omega),
    jsNumber_pair _ (by omega) _ (by omega),
    jsNumber_triple _ (by omega) _ (by omega) _ (by omega)]
  dsimp only
  have e1 : (10 * (hn / 10) + hn % 10 : ℕ) = hn := by omega
  have e2 : (10 * (mn / 10) + mn % 10 : ℕ) = mn := by omega
  have e3 : (10 * (sn / 10) + sn % 10 : ℕ) = sn := by omega
  have e4 : (100 * (msn / 100) + 10 * (msn / 10 % 10) + msn % 10 : ℕ) = msn := by omega
  rw [e1, e2, e3, e4]

theorem matchTimestamp_tsChars (hn mn sn msn : ℕ) (h1 : hn < 100) (h2 : mn < 60)
    (h3 : sn < 60) (h4 : msn < 1000) (rest : List Char) :
    matchTimestamp (tsChars hn mn sn msn ++ rest) = some (tsChars hn mn sn msn, rest) := by
  rw [tsChars]
  simp only [List.cons_append, List.nil_append]
  rw [matchTimestamp, if_pos (by
    simp [digitChar_isDigit _ (show hn / 10 < 10 by omega),
      digitChar_isDigit _ (show hn % 10 < 10 by omega),
      digitChar_isDigit _ (show mn / 10 < 10 by omega),
      digitChar_isDigit _ (show mn % 10 < 10 by omega),
      digitChar_isDigit _ (show sn / 10 < 10 by omega),
      digitChar_isDigit _ (show sn % 10 < 10 by omega),
      digitChar_isDigit _ (show msn / 100 < 10 by omega),
      digitChar_isDigit _ (show msn / 10 % 10 < 10 by omega),
      digitChar_isDigit _ (show msn % 10 < 10 by omega)])]

theorem matchArrow_arrowChars (rest : List Char) :
    matchArrow (arrowChars ++ rest) = some rest := rfl

theorem findTimePair_line (hn mn sn msn hn2 mn2 sn2 msn2 : ℕ)
    (h1 : hn < 100) (h2 : mn < 60) (h3 : sn < 60) (h4 : msn < 1000)
    (h5 : hn2 < 100) (h6 : mn2 < 60) (h7 : sn2 < 60) (h8 : msn2 < 1000) :
    findTimePair (tsChars hn mn sn msn ++ arrowChars ++ tsChars hn2 mn2 sn2 msn2) =
      some (tsChars hn mn sn msn, tsChars hn2 mn2 sn2 msn2) := by
  have hpair : matchTimePairAt
      (tsChars hn mn sn msn ++ arrowChars ++ tsChars hn2 mn2 sn2 msn2) =
      some (tsChars hn mn sn msn, tsChars hn2 mn2 sn2 msn2) := by
    rw [matchTimePairAt, List.append_assoc,
      matchTimestamp_tsChars _ _ _ _ h1 h2 h3 h4]
    dsimp only
    rw [matchArrow_arrowChars]
    have h2nd := matchTimestamp_tsChars hn2 mn2 sn2 msn2 h5 h6 h7 h8 []
    rw [List.append_nil] at h2nd
    dsimp only
    rw [h2nd]
  have hcons : tsChars hn mn sn msn ++ arrowChars ++ tsChars hn2 mn2 sn2 msn2 =
      digitChar (hn / 10) :: ([digitChar (hn % 10), ':',
        digitChar (mn / 10), digitChar (mn % 10), ':',
        digitChar (sn / 10), digitChar (sn % 10), ',',
        digitChar (msn / 100), digitChar (msn / 10 % 10), digitChar (msn % 10)] ++
          arrowChars ++ tsChars hn2 mn2 sn2 msn2) := by
    rw [tsChars]
    simp [List.cons_append]
  rw [hcons, findTimePair, ← hcons, hpair]

theorem tsChars_no_newline (hn mn sn msn : ℕ) (h1 : hn < 100) (h2 : mn < 60)
    (h3 : sn < 60) (h4 : msn < 1000) : ('\n' : Char) ∉ tsChars hn mn sn msn := by
  intro hmem
  rw [tsChars] at hmem
  have hd : ∀ d, d < 10 → ¬ ('\n' : Char) = digitChar d := fun d hd h =>
    digitChar_ne_newline d hd h.symm
  simp only [List.mem_cons, List.not_mem_nil, or_false] at hmem
  rcases hmem with h | h | h | h | h | h | h | h | h | h | h | h
  all_goals first
    | exact hd _ (by omega) h
    | exact absurd h (by decide)

theorem timeLine_no_newline (hn mn sn msn hn2 mn2 sn2 msn2 : ℕ)
    (h1 : hn < 100) (h2 : mn < 60) (h3 : sn < 60) (h4 : msn < 1000)
    (h5 : hn2 < 100) (h6 : mn2 < 60) (h7 : sn2 < 60) (h8 : msn2 < 1000) :
    ('\n' : Char) ∉ tsChars hn mn sn msn ++ arrowChars ++ tsChars hn2 mn2 sn2 msn2 := by
  intro hmem
  rcases List.mem_append.mp hmem with hmem | hmem
  · rcases List.mem_append.mp hmem with hmem | hmem
    · exact tsChars_no_newline _ _ _ _ h1 h2 h3 h4 hmem
    · rw [arrowChars] at hmem
      simp only [List.mem_cons, List.not_mem_nil, or_false] at hmem
      rcases hmem with h | h | h | h | h
      all_goals exact absurd h (by decide)
  · exact tsChars_no_newline _ _ _ _ h5 h6 h7 h8 hmem

theorem splitBlankAux_nil (acc : List Char) : splitBlankAux [] acc = [acc.reverse] := by
  rw [splitBlankAux]

theorem sepTail_cons_nonspace (c : Char) (r : List Char) (hc : isSpace c = false) :
    sepTail (c :: r) = none := by
  rw [sepTail, if_neg (by rw [hc]; exact Bool.false_ne_true)]

theorem splitBlankAux_cons_sep (rest r : List Char) (acc : List Char)
    (hsep : sepTail rest = some r) :
    splitBlankAux ('\n' :: rest) acc = acc.reverse :: splitBlankAux r [] := by
  rw [splitBlankAux, if_pos rfl]
  split
  · rename_i r2 heq
    rw [heq] at hsep
    injection hsep with hsep
    rw [hsep]
  · rename_i heq
    rw [heq] at hsep
    exact Option.noConfusion hsep

theorem splitBlankAux_cons_nosep (c : Char) (rest : List Char) (acc : List Char)
    (h : c = '\n' → sepTail rest = none) :
    splitBlankAux (c :: rest) acc = splitBlankAux rest (c :: acc) := by
  rw [splitBlankAux]
  by_cases hc : c = '\n'
  · rw [if_pos hc]
    split
    · rename_i r2 heq
      rw [h hc] at heq
      exact Option.noConfusion heq
    · subst hc
      rfl
  · rw [if_neg hc]

theorem sepTail_none_of_text (text : List Char) (hnl : ('\n' : Char) ∉ text)
    (hsome : ∃ c ∈ text, isSpace c = false) (k : List Char) :
    sepTail (text ++ k) = none := by
  induction text with
  | nil =>
    obtain ⟨c, hc, _⟩ := hsome
    exact absurd hc (List.not_mem_nil c)
  | cons x rest ih =>
    by_cases hx : isSpace x = true
    · have hxn : x ≠ '\n' := fun h => hnl (by rw [h]; exact List.mem_cons_self _ _)
      obtain ⟨c, hc, hcs⟩ := hsome
      have hcrest : c ∈ rest := by
        rcases List.mem_cons.mp hc with hcx | hcx
        · rw [hcx] at hcs
          rw [hcs] at hx
          exact absurd hx Bool.false_ne_true
        · exact hcx
      rw [List.cons_append, sepTail, if_pos hx,
        ih (fun h => hnl (List.mem_cons_of_mem x h)) ⟨c, hcrest, hcs⟩]
      rw [if_neg hxn]
    · rw [Bool.not_eq_true] at hx
      rw [List.cons_append]
      exact sepTail_cons_nonspace x _ hx

theorem splitBlankAux_no_sep (u : List Char) (acc : List Char)
    (hu : ∀ p q, u = p ++ '\n' :: q → sepTail q = none) :
    splitBlankAux u acc = [acc.reverse ++ u] := by
  induction u generalizing acc with
  | nil => rw [splitBlankAux_nil, List.append_nil]
  | cons x u2 ih =>
    by_cases hx : x = '\n'
    · subst hx
      rw [splitBlankAux_cons_nosep _ _ _ (fun _ => hu [] u2 rfl)]
      rw [ih _ (fun p q hpq => hu ('\n' :: p) q (by rw [hpq]; rfl))]
      simp
    · rw [splitBlankAux_cons_nosep _ _ _ (fun hc => absurd hc hx)]
      rw [ih _ (fun p q hpq => hu (x :: p) q (by rw [hpq]; rfl))]
      simp

theorem splitBlankAux_append_sep (u w : List Char) (acc : List Char)
    (hu : ∀ p q, u = p ++ '\n' :: q → sepTail (q ++ '\n' :: '\n' :: w) = none)
    (hw : ∃ c r, w = c :: r ∧ isSpace c = false) :
    splitBlankAux (u ++ '\n' :: '\n' :: w) acc =
      (acc.reverse ++ u) :: splitBlankAux w [] := by
  induction u generalizing acc with
  | nil =>
    obtain ⟨c, r, hwc, hcs⟩ := hw
    have hst : sepTail ('\n' :: w) = some w := by
      rw [hwc, sepTail, if_pos (by decide), sepTail_cons_nonspace c r hcs]
      rw [if_pos rfl]
    rw [List.nil_append, splitBlankAux_cons_sep _ _ _ hst, List.append_nil]
  | cons x u2 ih =>
    by_cases hx : x = '\n'
    · subst hx
      have hnone : sepTail (u2 ++ '\n' :: '\n' :: w) = none := hu [] u2 rfl
      rw [List.cons_append, splitBlankAux_cons_nosep _ _ _ (fun _ => hnone)]
      rw [ih _ (fun p q hpq => hu ('\n' :: p) q (by rw [hpq]; rfl))]
      simp
    · rw [List.cons_append, splitBlankAux_cons_nosep _ _ _ (fun hc => absurd hc hx)]
      rw [ih _ (fun p q hpq => hu (x :: p) q (by rw [hpq]; rfl))]
      simp

theorem dropWhile_eq_self_of_head (p : Char → Bool) (l : List Char)
    (h : ∀ c, l.head? = some c → p c = false) : l.dropWhile p = l := by
  cases l with
  | nil => rfl
  | cons c r =>
    rw [List.dropWhile_cons, if_neg (by rw [h c rfl]; exact Bool.false_ne_true)]

/-- Trimming a block-shaped string (non-space first and last characters) that
carries one trailing newline gives back the string. -/
theorem jsTrim_block (l : List Char) (hhead : ∃ c r, l = c :: r ∧ isSpace c = false)
    (hlast : ∀ c, l.getLast? = some c → isSpace c = false) :
    jsTrim (l ++ ['\n']) = l := by
  obtain ⟨c, r, rfl, hcs⟩ := hhead
  rw [jsTrim, List.cons_append, List.dropWhile_cons,
    if_neg (by rw [hcs]; exact Bool.false_ne_true)]
  rw [show c :: (r ++ ['\n']) = (c :: r) ++ ['\n'] from rfl, List.reverse_append]
  rw [show (['\n'] : List Char).reverse ++ (c :: r).reverse =
    '\n' :: (c :: r).reverse from rfl]
  rw [List.dropWhile_cons, if_pos (by decide)]
  rw [dropWhile_eq_self_of_head _ _
    (fun d hd => hlast d (by rwa [List.head?_reverse] at hd))]
  rw [List.reverse_reverse]

theorem joinWith_blocks (cores : List (List Char)) (h : cores ≠ []) :
    joinWith ['\n'] (cores.map (· ++ ['\n'])) =
      joinWith ['\n', '\n'] cores ++ ['\n'] := by
  induction cores with
  | nil => exact absurd rfl h
  | cons b bs ih =>
    cases bs with
    | nil => rfl
    | cons b2 bs2 =>
      show (b ++ ['\n']) ++ ['\n'] ++ joinWith ['\n'] ((b2 :: bs2).map (· ++ ['\n'])) = _
      rw [ih (by simp)]
      show _ = (b ++ ['\n', '\n'] ++ joinWith ['\n', '\n'] (b2 :: bs2)) ++ ['\n']
      simp

theorem newline_split_cases (a : List Char) (ha : ('\n' : Char) ∉ a) :
    ∀ (p x q : List Char), p ++ '\n' :: q = a ++ '\n' :: x →
      (p = a ∧ q = x) ∨ ∃ p2, p = a ++ '\n' :: p2 ∧ p2 ++ '\n' :: q = x := by
  induction a with
  | nil =>
    intro p x q heq
    cases p with
    | nil =>
      rw [List.nil_append, List.nil_append] at heq
      injection heq with _ heq
      exact Or.inl ⟨rfl, heq⟩
    | cons c p2 =>
      rw [List.cons_append, List.nil_append] at heq
      injection heq with hc heq
      exact Or.inr ⟨p2, by rw [List.nil_append, hc], heq⟩
  | cons c a2 ih =>
    intro p x q heq
    have hc : c ≠ '\n' := fun h => ha (by rw [h]; exact List.mem_cons_self _ _)
    have ha2 : ('\n' : Char) ∉ a2 := fun h => ha (List.mem_cons_of_mem c h)
    cases p with
    | nil =>
      rw [List.nil_append, List.cons_append] at heq
      injection heq with h1
      exact absurd h1.symm hc
    | cons c2 p2 =>
      rw [List.cons_append, List.cons_append] at heq
      injection heq with h1 h2
      rcases ih ha2 p2 x q h2 with ⟨hpa, hqx⟩ | ⟨p3, hp3, hx⟩
      · exact Or.inl ⟨by rw [h1, hpa], hqx⟩
      · exact Or.inr ⟨p3, by rw [h1, hp3, List.cons_append], hx⟩

theorem natToStringAux_digits : ∀ (fuel n : ℕ), ∀ c ∈ natToStringAux fuel n,
    ∃ d, d < 10 ∧ c = digitChar d := by
  intro fuel
  induction fuel with
  | zero => intro n c hc; exact absurd hc (List.not_mem_nil c)
  | succ f ih =>
    intro n c hc
    rw [natToStringAux] at hc
    by_cases hn : n < 10
    · rw [if_pos hn] at hc
      simp only [List.mem_singleton] at hc
      exact ⟨n, hn, hc⟩
    · rw [if_neg hn] at hc
      rcases List.mem_append.mp hc with hc | hc
      · exact ih _ c hc
      · simp only [List.mem_singleton] at hc
        exact ⟨n % 10, by omega, hc⟩

theorem natToString_no_newline (n : ℕ) : ('\n' : Char) ∉ natToString n := by
  intro h
  obtain ⟨d, hd, hc⟩ := natToStringAux_digits (n + 1) n _ h
  exact digitChar_ne_newline d hd hc.symm

theorem natToString_head (n : ℕ) :
    ∃ d r, natToString n = digitChar d :: r ∧ d < 10 := by
  by_cases hn : n < 10
  · exact ⟨n, [], natToString_lt10 n hn, hn⟩
  · rw [natToString, natToStringAux, if_neg hn]
    rcases h : natToStringAux n (n / 10) with _ | ⟨c, rest⟩
    · exact ⟨n % 10, [], by rw [List.nil_append], by omega⟩
    · obtain ⟨d, hd, hc⟩ := natToStringAux_digits n (n / 10) c
        (by rw [h]; exact List.mem_cons_self _ _)
      refine ⟨d, rest ++ [digitChar (n % 10)], ?_, hd⟩
      rw [List.cons_append, ← hc]

theorem mem_of_getLast?_chr : ∀ {l : List Char} {c : Char},
    l.getLast? = some c → c ∈ l := by
  intro l
  induction l with
  | nil => intro c h; exact absurd h (by simp)
  | cons x t ih =>
    intro c h
    cases t with
    | nil =>
      rw [List.getLast?_singleton] at h
      injection h with h
      rw [h]
      exact List.mem_cons_self _ _
    | cons y t2 =>
      rw [List.getLast?_cons_cons] at h
      exact List.mem_cons_of_mem x (ih h)

theorem srtBlock_eq (index : ℕ) (e : SubtitleEntry) :
    srtBlock index e = blockCore index e ++ ['\n'] := by
  rw [srtBlock, blockCore]

theorem blockCore_shape (index : ℕ) (e : SubtitleEntry) :
    blockCore index e = natToString (index + 1) ++
      '\n' :: ((formatTime e.startTime ++ arrowChars ++ formatTime e.endTime) ++
        '\n' :: emittedText e) := by
  rw [blockCore]
  simp

theorem sepTail_tsChars_append (hn mn sn msn : ℕ) (h1 : hn < 100) (k : List Char) :
    sepTail (tsChars hn mn sn msn ++ k) = none := by
  rw [tsChars, List.cons_append]
  exact sepTail_cons_nonspace _ _ (digitChar_not_space _ (by omega))

theorem goodText_witness (text : List Char) (hg : goodText text) :
    ∃ c, text.getLast? = some c ∧ isSpace c = false := by
  obtain ⟨hne, _, hlast⟩ := hg
  rcases hgl : text.getLast? with _ | c
  · rw [List.getLast?_eq_none_iff] at hgl
    exact absurd hgl hne
  · exact ⟨c, rfl, hlast c hgl⟩

theorem blockCore_facts (index : ℕ) (e : SubtitleEntry) (he : goodEntry e) :
    (∃ c r, blockCore index e = c :: r ∧ isSpace c = false) ∧
      (∀ c, (blockCore index e).getLast? = some c → isSpace c = false) ∧
      (∀ p q, blockCore index e = p ++ '\n' :: q → ∀ k, sepTail (q ++ k) = none) := by
  obtain ⟨hst, hen, htext⟩ := he
  obtain ⟨h1, m1, s1, ms1, hb1, hb2, hb3, hb4, hft1, _⟩ := formatTime_fields _ hst
  obtain ⟨h2, m2, s2, ms2, hc1, hc2, hc3, hc4, hft2, _⟩ := formatTime_fields _ hen
  obtain ⟨tc, htc, htcs⟩ := goodText_witness _ htext
  obtain ⟨htne, htnl, _⟩ := htext
  refine ⟨?_, ?_, ?_⟩
  · obtain ⟨d, r, hnts, hd⟩ := natToString_head (index + 1)
    refine ⟨digitChar d, r ++ '\n' :: ((formatTime e.startTime ++ arrowChars ++
      formatTime e.endTime) ++ '\n' :: emittedText e), ?_, digitChar_not_space d hd⟩
    rw [blockCore_shape, hnts]
    rfl
  · intro c hc
    rw [blockCore_shape, List.getLast?_append,
      show ('\n' :: ((formatTime e.startTime ++ arrowChars ++ formatTime e.endTime) ++
        '\n' :: emittedText e)) = (['\n'] ++ ((formatTime e.startTime ++ arrowChars ++
          formatTime e.endTime) ++ ('\n' :: emittedText e))) from rfl,
      List.getLast?_append, List.getLast?_append,
      show ('\n' :: emittedText e) = (['\n'] ++ emittedText e) from rfl,
      List.getLast?_append, htc] at hc
    have hc2 : (some tc : Option Char) = some c := hc
    injection hc2 with hc2
    rw [← hc2]
    exact htcs
  · intro p q hpq k
    have hnl1 : ('\n' : Char) ∉ natToString (index + 1) := natToString_no_newline _
    have hTS : formatTime e.startTime ++ arrowChars ++ formatTime e.endTime =
        tsChars h1 m1 s1 ms1 ++ arrowChars ++ tsChars h2 m2 s2 ms2 := by
      rw [hft1, hft2]
    have hTSnl : ('\n' : Char) ∉
        formatTime e.startTime ++ arrowChars ++ formatTime e.endTime := by
      rw [hTS]
      exact timeLine_no_newline _ _ _ _ _ _ _ _ hb1 hb2 hb3 hb4 hc1 hc2 hc3 hc4
    rw [blockCore_shape] at hpq
    rcases newline_split_cases _ hnl1 p _ q hpq.symm with ⟨_, hq⟩ | ⟨p2, _, hrest⟩
    · rw [hq, hTS]
      simp only [List.append_assoc, List.cons_append]
      rw [show tsChars h1 m1 s1 ms1 ++ (arrowChars ++ (tsChars h2 m2 s2 ms2 ++
        '\n' :: (emittedText e ++ k))) = tsChars h1 m1 s1 ms1 ++ (arrowChars ++
          (tsChars h2 m2 s2 ms2 ++ '\n' :: (emittedText e ++ k))) from rfl]
      exact sepTail_tsChars_append h1 m1 s1 ms1 hb1 _
    · rcases newline_split_cases _ hTSnl p2 _ q hrest with ⟨_, hq⟩ | ⟨p3, _, htext2⟩
      · rw [hq]
        refine sepTail_none_of_text _ htnl ?_ k
        exact ⟨tc, mem_of_getLast?_chr htc, htcs⟩
      · exfalso
        apply htnl
        rw [← htext2]
        exact List.mem_append_right p3 (List.mem_cons_self _ _)

theorem joinWith2_head (sep : List Char) (b : List Char) (bs : List (List Char))
    (c : Char) (r : List Char) (hb : b = c :: r) :
    ∃ r2, joinWith sep (b :: bs) = c :: r2 := by
  cases bs with
  | nil => exact ⟨r, hb⟩
  | cons b2 bs2 =>
    refine ⟨r ++ sep ++ joinWith sep (b2 :: bs2), ?_⟩
    show b ++ sep ++ joinWith sep (b2 :: bs2) = _
    rw [hb]
    simp

theorem joinWith2_getLast (sep : List Char) : ∀ (bs : List (List Char)) (b : List Char)
    (c : Char), (∀ x ∈ b :: bs, x ≠ []) →
    (joinWith sep (b :: bs)).getLast? = some c →
    ∃ x ∈ b :: bs, x.getLast? = some c := by
  intro bs
  induction bs with
  | nil =>
    intro b c _ hgl
    exact ⟨b, List.mem_cons_self _ _, hgl⟩
  | cons b2 bs2 ih =>
    intro b c hne hgl
    have hb2ne := hne b2 (List.mem_cons_of_mem b (List.mem_cons_self _ _))
    obtain ⟨c2, r2, hb2⟩ : ∃ c2 r2, b2 = c2 :: r2 := by
      cases b2 with
      | nil => exact absurd rfl hb2ne
      | cons x y => exact ⟨x, y, rfl⟩
    obtain ⟨r3, hJ2⟩ := joinWith2_head sep b2 bs2 c2 r2 hb2
    rw [show joinWith sep (b :: b2 :: bs2) = b ++ sep ++ joinWith sep (b2 :: bs2)
      from rfl] at hgl
    rw [List.append_assoc, List.getLast?_append, List.getLast?_append, hJ2] at hgl
    have hJne : (c2 :: r3 : List Char).getLast? ≠ none := by
      simp [List.getLast?_eq_none_iff]
    rcases hJl : (c2 :: r3 : List Char).getLast? with _ | c3
    · exact absurd hJl hJne
    · rw [hJl] at hgl
      have hgl2 : (some c3 : Option Char) = some c := hgl
      injection hgl2 with hgl2
      subst hgl2
      obtain ⟨x, hx, hxl⟩ := ih b2 c3 (fun y hy => hne y (List.mem_cons_of_mem b hy))
        (by rw [hJ2]; exact hJl)
      exact ⟨x, List.mem_cons_of_mem b hx, hxl⟩

theorem splitBlank_join2 : ∀ (cores : List (List Char)),
    (∀ core ∈ cores, ∀ p q, core = p ++ '\n' :: q → ∀ k, sepTail (q ++ k) = none) →
    (∀ core ∈ cores, ∃ c r, core = c :: r ∧ isSpace c = false) →
    cores ≠ [] → splitBlank (joinWith ['\n', '\n'] cores) = cores := by
  intro cores
  induction cores with
  | nil => intro _ _ h; exact absurd rfl h
  | cons b bs ih =>
    intro hsafe hheads _
    cases bs with
    | nil =>
      show splitBlankAux b [] = [b]
      rw [splitBlankAux_no_sep b [] (fun p q hpq => by
        have h := hsafe b (List.mem_cons_self _ _) p q hpq []
        rwa [List.append_nil] at h)]
      rw [List.reverse_nil, List.nil_append]
    | cons b2 bs2 =>
      show splitBlankAux (b ++ ['\n', '\n'] ++ joinWith ['\n', '\n'] (b2 :: bs2)) [] =
        b :: b2 :: bs2
      obtain ⟨c2, r2, hb2, hc2s⟩ := hheads b2 (List.mem_cons_of_mem b (List.mem_cons_self _ _))
      obtain ⟨r3, hJhead⟩ := joinWith2_head ['\n', '\n'] b2 bs2 c2 r2 hb2
      rw [List.append_assoc,
        show (['\n', '\n'] ++ joinWith ['\n', '\n'] (b2 :: bs2)) =
          '\n' :: '\n' :: joinWith ['\n', '\n'] (b2 :: bs2) from rfl]
      rw [splitBlankAux_append_sep _ _ _
        (fun p q hpq => hsafe b (List.mem_cons_self _ _) p q hpq _)
        ⟨c2, r3, hJhead, hc2s⟩]
      rw [List.reverse_nil, List.nil_append]
      refine congrArg _ ?_
      exact ih (fun core hc => hsafe core (List.mem_cons_of_mem b hc))
        (fun core hc => hheads core (List.mem_cons_of_mem b hc)) (by simp)

theorem parseBlock_blockCore (index now : ℕ) (e : SubtitleEntry) (he : goodEntry e) :
    parseBlock index now (blockCore index e) = some (expectedParsed index now e) := by
  obtain ⟨hst, hen, htext⟩ := he
  obtain ⟨h1, m1, s1, ms1, hb1, hb2, hb3, hb4, hft1, hv1⟩ := formatTime_fields _ hst
  obtain ⟨h2, m2, s2, ms2, hc1, hc2, hc3, hc4, hft2, hv2⟩ := formatTime_fields _ hen
  obtain ⟨htne, htnl, _⟩ := htext
  have hTSnl : ('\n' : Char) ∉
      formatTime e.startTime ++ arrowChars ++ formatTime e.endTime := by
    rw [hft1, hft2]
    exact timeLine_no_newline _ _ _ _ _ _ _ _ hb1 hb2 hb3 hb4 hc1 hc2 hc3 hc4
  have hsplit : splitOnChar '\n' (blockCore index e) =
      [natToString (index + 1),
        formatTime e.startTime ++ arrowChars ++ formatTime e.endTime,
        emittedText e] := by
    rw [blockCore_shape, splitOnChar_append _ _ _ (natToString_no_newline _),
      splitOnChar_append _ _ _ hTSnl, splitOnChar_not_mem _ _ htnl]
  rw [parseBlock, hsplit]
  dsimp only
  rw [hft1, hft2, findTimePair_line _ _ _ _ _ _ _ _ hb1 hb2 hb3 hb4 hc1 hc2 hc3 hc4]
  dsimp only
  rw [timestampToSeconds_tsChars _ _ _ _ hb1 hb2 hb3 hb4,
    timestampToSeconds_tsChars _ _ _ _ hc1 hc2 hc3 hc4]
  dsimp only
  rw [expectedParsed, ← hv1, ← hv2]
  rfl

theorem parseSRT_blocks_map (now : ℕ) : ∀ (l : List SubtitleEntry) (n : ℕ),
    (∀ e ∈ l, goodEntry e) →
    (List.enumFrom n ((List.enumFrom n l).map fun p => blockCore p.1 p.2)).filterMap
        (fun p => parseBlock p.1 now p.2) =
      (List.enumFrom n l).map fun p => expectedParsed p.1 now p.2 := by
  intro l
  induction l with
  | nil => intro n _; rfl
  | cons e l2 ih =>
    intro n hgood
    dsimp only [List.enumFrom, List.map]
    rw [List.filterMap_cons]
    dsimp only
    rw [parseBlock_blockCore n now e (hgood e (List.mem_cons_self _ _))]
    rw [ih (n + 1) (fun x hx => hgood x (List.mem_cons_of_mem e hx))]

end Srt

/-- C7 amended: for subtitle lists whose times lie in `[0, 360000)` seconds
and whose emitted text (`translatedText` if nonempty, else `originalText`) is
nonempty, newline-free and does not end in whitespace, parsing the generated
SRT text yields one entry per original, in order, whose start and end
timestamps are the originals truncated to the format's millisecond precision
(exactly the originals whenever they are whole milliseconds) and whose
`originalText` is exactly the emitted text; the truncation error is always in
`[0, 1/1000)`. -/
theorem C7_amended_srt_roundtrip (l : List SubtitleEntry) (now : ℕ)
    (h : ∀ e ∈ l, Srt.goodEntry e) :
    Srt.parseSRT (Srt.generateSRT l) now =
        l.enum.map (fun p => Srt.expectedParsed p.1 now p.2) ∧
      ∀ t : ℚ, 0 ≤ t - Srt.msTrunc t ∧ t - Srt.msTrunc t < 1 / 1000 := by
  constructor
  · cases l with
    | nil =>
      rw [Srt.parseSRT]
      rw [show Srt.generateSRT [] = [] from rfl]
      rw [show Srt.jsTrim [] = [] from rfl]
      rw [Srt.splitBlank, Srt.splitBlankAux_nil]
      rfl
    | cons e0 l2 =>
      have hgoodp : ∀ p ∈ (e0 :: l2).enum, Srt.goodEntry p.2 := by
        intro p hp
        obtain ⟨_, hx⟩ := List.mem_enum (x := p.2) (i := p.1) hp
        rw [hx]
        exact h _ (List.getElem_mem _)
      have hsafe : ∀ core ∈ (e0 :: l2).enum.map (fun p => Srt.blockCore p.1 p.2),
          ∀ p q, core = p ++ '\n' :: q → ∀ k, Srt.sepTail (q ++ k) = none := by
        intro core hc
        obtain ⟨p0, hp0, hcore⟩ := List.mem_map.mp hc
        rw [← hcore]
        exact (Srt.blockCore_facts p0.1 p0.2 (hgoodp p0 hp0)).2.2
      have hheads : ∀ core ∈ (e0 :: l2).enum.map (fun p => Srt.blockCore p.1 p.2),
          ∃ c r, core = c :: r ∧ Srt.isSpace c = false := by
        intro core hc
        obtain ⟨p0, hp0, hcore⟩ := List.mem_map.mp hc
        rw [← hcore]
        exact (Srt.blockCore_facts p0.1 p0.2 (hgoodp p0 hp0)).1
      have hlasts : ∀ core ∈ (e0 :: l2).enum.map (fun p => Srt.blockCore p.1 p.2),
          ∀ c, core.getLast? = some c → Srt.isSpace c = false := by
        intro core hc
        obtain ⟨p0, hp0, hcore⟩ := List.mem_map.mp hc
        rw [← hcore]
        exact (Srt.blockCore_facts p0.1 p0.2 (hgoodp p0 hp0)).2.1
      have hne : (e0 :: l2).enum.map (fun p => Srt.blockCore p.1 p.2) ≠ [] := by
        simp [List.enum]
      rw [Srt.parseSRT, Srt.generateSRT,
        List.map_congr_left (fun p _ => Srt.srtBlock_eq p.1 p.2),
        show (fun p : ℕ × SubtitleEntry => Srt.blockCore p.1 p.2 ++ ['\n']) =
          ((· ++ ['\n']) ∘ (fun p : ℕ × SubtitleEntry => Srt.blockCore p.1 p.2))
          from rfl,
        ← List.map_map, Srt.joinWith_blocks _ hne]
      have hJhead : ∃ c r, Srt.joinWith ['\n', '\n']
          ((e0 :: l2).enum.map (fun p => Srt.blockCore p.1 p.2)) = c :: r ∧
          Srt.isSpace c = false := by
        have hcons : (e0 :: l2).enum.map (fun p => Srt.blockCore p.1 p.2) =
            Srt.blockCore 0 e0 ::
              (List.enumFrom 1 l2).map (fun p => Srt.blockCore p.1 p.2) := rfl
        obtain ⟨c, r, hc, hcs⟩ := hheads (Srt.blockCore 0 e0)
          (by rw [hcons]; exact List.mem_cons_self _ _)
        obtain ⟨r2, hr2⟩ := Srt.joinWith2_head ['\n', '\n'] _ _ c r hc
        rw [hcons]
        exact ⟨c, r2, hr2, hcs⟩
      obtain ⟨jc, jr, hJ, hjcs⟩ := hJhead
      rw [Srt.jsTrim_block _ ⟨jc, jr, hJ, hjcs⟩ ?hlast]
      case hlast =>
        intro c hc
        have hcons : (e0 :: l2).enum.map (fun p => Srt.blockCore p.1 p.2) =
            Srt.blockCore 0 e0 ::
              (List.enumFrom 1 l2).map (fun p => Srt.blockCore p.1 p.2) := rfl
        rw [hcons] at hc
        obtain ⟨x, hx, hxl⟩ := Srt.joinWith2_getLast ['\n', '\n'] _ _ c
          (by
            intro y hy
            rw [← hcons] at hy
            obtain ⟨cy, ry, hcy, _⟩ := hheads y hy
            rw [hcy]
            exact List.cons_ne_nil _ _) hc
        rw [← hcons] at hx
        exact hlasts x hx c hxl
      rw [Srt.splitBlank_join2 _ hsafe hheads hne]
      exact Srt.parseSRT_blocks_map now (e0 :: l2) 0 h
  · intro t
    rw [Srt.msTrunc]
    constructor
    · have hfl := Int.floor_le (t * 1000)
      rw [sub_nonneg, div_le_iff₀ (show (0:ℚ) < 1000 by norm_num)]
      linarith
    · have hfl := Int.lt_floor_add_one (t * 1000)
      rw [sub_lt_iff_lt_add, div_add_div_same,
        lt_div_iff₀ (show (0:ℚ) < 1000 by norm_num)]
      linarith

/-- Counterexample to the claim read over all subtitle lists: an entry whose
emitted text is empty produces a block of only two lines, which the parser's
`lines.length >= 3` guard drops, so the round trip returns no entry at all for
it (no parsed entry with identical timestamps and text exists). -/
theorem C7_counterexample :
    Srt.parseSRT (Srt.generateSRT
      [(⟨"e", 0, 0, "", "", none⟩ : SubtitleEntry)]) 0 = [] := by
  have hm3600 : Srt.jsMod 0 3600 = 0 := by
    rw [Srt.jsMod, zero_div, if_pos le_rfl]
    norm_num
  have hm60 : Srt.jsMod 0 60 = 0 := by
    rw [Srt.jsMod, zero_div, if_pos le_rfl]
    norm_num
  have hm1 : Srt.jsMod 0 1 = 0 := by
    rw [Srt.jsMod, zero_div, if_pos le_rfl]
    norm_num
  have hts : Srt.formatTime 0 = "00:00:00,000".data := by
    rw [Srt.formatTime, hm3600, hm60, hm1]
    rw [show ((0:ℚ)/3600) = 0 by norm_num, show ((0:ℚ)/60) = 0 by norm_num,
      show ((0:ℚ)*1000) = 0 by norm_num, Int.floor_zero]
    rfl
  have hgen : Srt.generateSRT [(⟨"e", 0, 0, "", "", none⟩ : SubtitleEntry)] =
      ("1\n00:00:00,000 --> 00:00:00,000\n\n").data := by
    rw [Srt.generateSRT]
    dsimp only [List.enum, List.enumFrom, List.map, Srt.joinWith]
    rw [Srt.srtBlock, hts]
    decide
  have htrim : Srt.jsTrim (("1\n00:00:00,000 --> 00:00:00,000\n\n").data) =
      ("1\n00:00:00,000 --> 00:00:00,000").data := by decide
  have hu : ∀ p q, ("1\n00:00:00,000 --> 00:00:00,000").data = p ++ '\n' :: q →
      Srt.sepTail q = none := by
    intro p q hpq
    have hshape : ("1\n00:00:00,000 --> 00:00:00,000").data =
        ['1'] ++ '\n' :: ("00:00:00,000 --> 00:00:00,000").data := by decide
    rw [hshape] at hpq
    rcases Srt.newline_split_cases ['1'] (by decide) p
        ("00:00:00,000 --> 00:00:00,000").data q hpq.symm with
      ⟨_, hq⟩ | ⟨p2, _, hp2⟩
    · rw [hq]
      decide
    · exact absurd (show ('\n' : Char) ∈ ("00:00:00,000 --> 00:00:00,000").data by
        rw [← hp2]; exact List.mem_append.mpr (Or.inr (List.mem_cons_self _ _)))
        (by decide)
  have hsplit : Srt.splitBlank (("1\n00:00:00,000 --> 00:00:00,000").data) =
      [("1\n00:00:00,000 --> 00:00:00,000").data] := by
    rw [Srt.splitBlank, Srt.splitBlankAux_no_sep _ _ hu]
    rfl
  rw [Srt.parseSRT, hgen, htrim, hsplit]
  decide

/-- Witness: a concrete good entry round-trips to its expected parsed form. -/
theorem C7_amended_srt_roundtrip_witness :
    (∀ e ∈ [(⟨"a", 1, 2, "Hello", "Xin chao", none⟩ : SubtitleEntry)],
      Srt.goodEntry e) ∧
    (Srt.parseSRT (Srt.generateSRT
        [(⟨"a", 1, 2, "Hello", "Xin chao", none⟩ : SubtitleEntry)]) 7 =
        [(⟨"a", 1, 2, "Hello", "Xin chao", none⟩ : SubtitleEntry)].enum.map
          (fun p => Srt.expectedParsed p.1 7 p.2) ∧
      ∀ t : ℚ, 0 ≤ t - Srt.msTrunc t ∧ t - Srt.msTrunc t < 1 / 1000) := by
  have hg : ∀ e ∈ [(⟨"a", 1, 2, "Hello", "Xin chao", none⟩ : SubtitleEntry)],
      Srt.goodEntry e := by
    intro e he
    rw [List.mem_singleton] at he
    subst he
    refine ⟨⟨by decide, by decide⟩, ⟨by decide, by decide⟩, by decide, by decide, ?_⟩
    intro c hc
    have hc2 : (some 'o' : Option Char) = some c := hc
    injection hc2 with hc3
    rw [← hc3]
    decide
  exact ⟨hg, C7_amended_srt_roundtrip _ 7 hg⟩

namespace Gemini

theorem withRetryFrom_fail_fast (attempts : ℕ → Except JsError T) (jitter : ℕ → ℚ)
    (maxRetries : ℕ) (errs : ℕ → JsError) (e : JsError) :
    ∀ (k i0 : ℕ) (last : Option JsError), i0 + k < maxRetries →
      (∀ j, i0 ≤ j → j < i0 + k →
        attempts j = .error (errs j) ∧
          (isRateLimit (errs j) || isServerError (errs j)) = true) →
      attempts (i0 + k) = .error e →
      (isRateLimit e || isServerError e) = false →
      withRetryFrom attempts jitter maxRetries i0 last =
        (.error (some e),
          (List.range k).map (fun j => retryDelay (i0 + j) (jitter (i0 + j)))) := by
  intro k
  induction k with
  | zero =>
    intro i0 last hlt hprev hat hclass
    rw [withRetryFrom, dif_pos (by omega)]
    rw [show i0 + 0 = i0 from rfl] at hat
    rw [hat]
    simp [hclass]
  | succ k ih =>
    intro i0 last hlt hprev hat hclass
    obtain ⟨hat0, hretry0⟩ := hprev i0 (le_refl _) (by omega)
    have hrec := ih (i0 + 1) (some (errs i0)) (by omega)
      (fun j hj1 hj2 => hprev j (by omega) (by omega))
      (by rw [show i0 + 1 + k = i0 + (k + 1) by omega]; exact hat) hclass
    rw [withRetryFrom, dif_pos (by omega), hat0]
    simp only [hretry0, if_true, hrec]
    refine Prod.ext rfl ?_
    rw [List.range_succ_eq_map, List.map_cons, List.map_map]
    refine congrArg₂ _ (by rw [Nat.add_zero]) ?_
    refine List.map_congr_left fun j _ => ?_
    have harith : i0 + 1 + j = i0 + (j + 1) := by omega
    show retryDelay (i0 + 1 + j) (jitter (i0 + 1 + j)) = _
    rw [harith]
    rfl

theorem withRetryFrom_exhaust (attempts : ℕ → Except JsError T) (jitter : ℕ → ℚ)
    (maxRetries : ℕ) (errs : ℕ → JsError) :
    ∀ (k i0 : ℕ) (last : Option JsError), i0 + k = maxRetries →
      (∀ j, i0 ≤ j → j < maxRetries →
        attempts j = .error (errs j) ∧
          (isRateLimit (errs j) || isServerError (errs j)) = true) →
      withRetryFrom attempts jitter maxRetries i0 last =
        (.error (if k = 0 then last else some (errs (maxRetries - 1))),
          (List.range k).map (fun j => retryDelay (i0 + j) (jitter (i0 + j)))) := by
  intro k
  induction k with
  | zero =>
    intro i0 last heq hprev
    rw [withRetryFrom, dif_neg (by omega)]
    simp
  | succ k ih =>
    intro i0 last heq hprev
    obtain ⟨hat0, hretry0⟩ := hprev i0 (le_refl _) (by omega)
    have hrec := ih (i0 + 1) (some (errs i0)) (by omega)
      (fun j hj1 hj2 => hprev j (by omega) hj2)
    rw [withRetryFrom, dif_pos (by omega), hat0]
    simp only [hretry0, if_true, hrec]
    refine Prod.ext ?_ ?_
    · show Except.error _ = Except.error _
      by_cases hk : k = 0
      · subst hk
        have hlast : maxRetries - 1 = i0 := by omega
        rw [if_pos rfl, hlast]
        simp
      · rw [if_neg hk, if_neg (by omega)]
    · show retryDelay i0 (jitter i0) :: _ = _
      rw [List.range_succ_eq_map, List.map_cons, List.map_map]
      refine congrArg₂ _ (by rw [Nat.add_zero]) ?_
      refine List.map_congr_left fun j _ => ?_
      have harith : i0 + 1 + j = i0 + (j + 1) := by omega
      show retryDelay (i0 + 1 + j) (jitter (i0 + 1 + j)) = _
      rw [harith]
      rfl

end Gemini

/-- C8: under `withRetry`, an error classified as rate-limit or server-error
is retried with exponential backoff plus the random jitter draw, up to
`maxRetries` attempts, after which the last such error is thrown; an error of
any other class is rethrown immediately with no further attempts (and no
further sleep). -/
theorem C8_withRetry_policy (T : Type) (attempts : ℕ → Except Gemini.JsError T)
    (jitter : ℕ → ℚ) (maxRetries : ℕ) (errs : ℕ → Gemini.JsError) :
    (∀ (i : ℕ) (e : Gemini.JsError), i < maxRetries →
      (∀ j, j < i →
        attempts j = .error (errs j) ∧
          (Gemini.isRateLimit (errs j) || Gemini.isServerError (errs j)) = true) →
      attempts i = .error e →
      (Gemini.isRateLimit e || Gemini.isServerError e) = false →
      Gemini.withRetry attempts jitter maxRetries =
        (.error (some e),
          (List.range i).map (fun j => Gemini.retryDelay j (jitter j)))) ∧
      (1 ≤ maxRetries →
        (∀ j, j < maxRetries →
          attempts j = .error (errs j) ∧
            (Gemini.isRateLimit (errs j) || Gemini.isServerError (errs j)) = true) →
        Gemini.withRetry attempts jitter maxRetries =
          (.error (some (errs (maxRetries - 1))),
            (List.range maxRetries).map (fun j => Gemini.retryDelay j (jitter j)))) := by
  constructor
  · intro i e hi hprev hat hclass
    have h := Gemini.withRetryFrom_fail_fast attempts jitter maxRetries errs e i 0 none
      (by omega) (fun j hj1 hj2 => hprev j (by omega)) (by simpa using hat) hclass
    rw [Gemini.withRetry, h]
    simp
  · intro hmax hprev
    have h := Gemini.withRetryFrom_exhaust attempts jitter maxRetries errs maxRetries 0 none
      (by omega) (fun j hj1 hj2 => hprev j hj2)
    rw [Gemini.withRetry, h, if_neg (by omega)]
    simp

theorem C8_withRetry_policy_witness :
    Gemini.withRetry attemptsFailFast (fun _ => 0) 3 =
        (.error (some authErr),
          (List.range 1).map (fun j => Gemini.retryDelay j 0)) ∧
      Gemini.withRetry attemptsExhaust (fun _ => 0) 3 =
        (.error (some serverErr),
          (List.range 3).map (fun j => Gemini.retryDelay j 0)) :=
  ⟨(C8_withRetry_policy Unit attemptsFailFast (fun _ => 0) 3
        (fun _ => rateLimitErr)).1 1 authErr (by decide)
      (fun j hj =>
        match j, hj with
        | 0, _ => ⟨rfl, by decide⟩
        | j + 1, hj => absurd hj (by omega))
      rfl (by decide),
    (C8_withRetry_policy Unit attemptsExhaust (fun _ => 0) 3
        (fun _ => serverErr)).2 (by decide) (fun _ _ => ⟨rfl, by decide⟩)⟩

namespace Workspace

theorem setCache_append (cache : List (String × AudioHandle)) (key : String)
    (h : AudioHandle) (hmiss : lookupCache cache key = none) :
    setCache cache key h = cache ++ [(key, h)] := by
  induction cache with
  | nil => rfl
  | cons kv rest ih =>
    rw [lookupCache, List.find?_cons] at hmiss
    by_cases hk : kv.1 = key
    · rw [decide_eq_true hk] at hmiss
      simp at hmiss
    · rw [decide_eq_false hk] at hmiss
      rw [setCache, if_neg hk, ih hmiss]
      rfl

end Workspace

/-- C9 fails on the code: the cache key on every insertion and lookup is the
active subtitle's `audioUrl`, not its `id`. After one update from the empty
cache for a subtitle with id `"s1"` and `audioUrl "u1"`, the only cache key is
`"u1"`; after a further update for a different subtitle `"s2"` with the same
`audioUrl`, no `"s2"` (or `"s1"`) key appears and no second handle is
created. -/
theorem C9_counterexample :
    ((Workspace.cueAudio ⟨[], 0, none⟩
          (some ⟨"s1", 0, 1, "a", "b", some "u1"⟩)).cache.map Prod.fst = ["u1"] ∧
        ("u1" : String) ≠ "s1") ∧
      (Workspace.cueAudio
          (Workspace.cueAudio ⟨[], 0, none⟩ (some ⟨"s1", 0, 1, "a", "b", some "u1"⟩))
          (some ⟨"s2", 2, 3, "c", "d", some "u1"⟩)).cache.map Prod.fst = ["u1"] := by
  decide

/-- C9 amended: the audio cache maps the active subtitle's `audioRef`
(`audioUrl`) — not its `id` — to a lazily created playable handle built from
that `audioUrl`; on a hit no handle is created and the cached one is reused
(becoming the active handle unless the effect already early-returns), and on
a miss a single fresh handle is stored under the `audioUrl`. -/
theorem C9_amended_cache_keyed_by_audioUrl (st : Workspace.AudioState)
    (sub : SubtitleEntry) (url : String) (hurl : sub.audioUrl = some url)
    (hne : url ≠ "") :
    (∀ h, Workspace.lookupCache st.cache url = some h →
      (Workspace.cueAudio st (some sub)).cache = st.cache ∧
        (Workspace.cueAudio st (some sub)).nextId = st.nextId ∧
        (Workspace.activeSrcIs st url = false →
          (Workspace.cueAudio st (some sub)).active = some h)) ∧
      (Workspace.lookupCache st.cache url = none →
        (Workspace.activeSrcIs st url = true → Workspace.cueAudio st (some sub) = st) ∧
        (Workspace.activeSrcIs st url = false →
          (Workspace.cueAudio st (some sub)).cache =
              st.cache ++ [(url, ⟨st.nextId, url⟩)] ∧
            (Workspace.cueAudio st (some sub)).nextId = st.nextId + 1 ∧
            (Workspace.cueAudio st (some sub)).active = some ⟨st.nextId, url⟩)) := by
  constructor
  · intro h hhit
    rw [Workspace.cueAudio, hurl]
    dsimp only
    rw [if_neg hne]
    by_cases hact : Workspace.activeSrcIs st url = true
    · rw [if_pos hact]
      exact ⟨rfl, rfl, fun hfalse => by
        rw [hact] at hfalse
        exact Bool.noConfusion hfalse⟩
    · rw [if_neg hact, hhit]
      exact ⟨rfl, rfl, fun _ => rfl⟩
  · intro hmiss
    rw [Workspace.cueAudio, hurl]
    dsimp only
    rw [if_neg hne]
    constructor
    · intro hact
      rw [if_pos hact]
    · intro hact
      rw [if_neg (by rw [hact]; exact Bool.false_ne_true), hmiss]
      exact ⟨Workspace.setCache_append st.cache url _ hmiss, rfl, rfl⟩

theorem C9_amended_cache_keyed_by_audioUrl_witness :
    (∀ h,
      Workspace.lookupCache
          (Workspace.AudioState.mk [("u1", ⟨0, "u1"⟩)] 1 none).cache "u1" = some h →
      (Workspace.cueAudio ⟨[("u1", ⟨0, "u1"⟩)], 1, none⟩
            (some ⟨"s1", 0, 1, "a", "b", some "u1"⟩)).cache =
          (Workspace.AudioState.mk [("u1", ⟨0, "u1"⟩)] 1 none).cache ∧
        (Workspace.cueAudio ⟨[("u1", ⟨0, "u1"⟩)], 1, none⟩
              (some ⟨"s1", 0, 1, "a", "b", some "u1"⟩)).nextId =
          (Workspace.AudioState.mk [("u1", ⟨0, "u1"⟩)] 1 none).nextId ∧
        (Workspace.activeSrcIs ⟨[("u1", ⟨0, "u1"⟩)], 1, none⟩ "u1" = false →
          (Workspace.cueAudio ⟨[("u1", ⟨0, "u1"⟩)], 1, none⟩
                (some ⟨"s1", 0, 1, "a", "b", some "u1"⟩)).active = some h)) ∧
      (Workspace.lookupCache
            (Workspace.AudioState.mk [("u1", ⟨0, "u1"⟩)] 1 none).cache "u1" = none →
        (Workspace.activeSrcIs ⟨[("u1", ⟨0, "u1"⟩)], 1, none⟩ "u1" = true →
          Workspace.cueAudio ⟨[("u1", ⟨0, "u1"⟩)], 1, none⟩
              (some ⟨"s1", 0, 1, "a", "b", some "u1"⟩) =
            ⟨[("u1", ⟨0, "u1"⟩)], 1, none⟩) ∧
        (Workspace.activeSrcIs ⟨[("u1", ⟨0, "u1"⟩)], 1, none⟩ "u1" = false →
          (Workspace.cueAudio ⟨[("u1", ⟨0, "u1"⟩)], 1, none⟩
                (some ⟨"s1", 0, 1, "a", "b", some "u1"⟩)).cache =
              (Workspace.AudioState.mk [("u1", ⟨0, "u1"⟩)] 1 none).cache ++
                [("u1", ⟨1, "u1"⟩)] ∧
            (Workspace.cueAudio ⟨[("u1", ⟨0, "u1"⟩)], 1, none⟩
                  (some ⟨"s1", 0, 1, "a", "b", some "u1"⟩)).nextId = 1 + 1 ∧
            (Workspace.cueAudio ⟨[("u1", ⟨0, "u1"⟩)], 1, none⟩
                  (some ⟨"s1", 0, 1, "a", "b", some "u1"⟩)).active =
              some ⟨1, "u1"⟩)) :=
  C9_amended_cache_keyed_by_audioUrl ⟨[("u1", ⟨0, "u1"⟩)], 1, none⟩
    ⟨"s1", 0, 1, "a", "b", some "u1"⟩ "u1" rfl (by decide)

theorem C4_activeSub_first_match_witness :
    ((⟨"1", 0, 2, "a", "", none⟩ : SubtitleEntry).startTime ≤ 2 ∧
        (2 : ℚ) ≤ (⟨"1", 0, 2, "a", "", none⟩ : SubtitleEntry).endTime) ∧
      ∃ l₁ l₂,
        [(⟨"1", 0, 2, "a", "", none⟩ : SubtitleEntry), ⟨"2", 2, 4, "b", "", none⟩] =
            l₁ ++ (⟨"1", 0, 2, "a", "", none⟩ : SubtitleEntry) :: l₂ ∧
          ∀ x ∈ l₁, ¬(x.startTime ≤ 2 ∧ (2 : ℚ) ≤ x.endTime) :=
  (C4_activeSub_first_match 2
      [⟨"1", 0, 2, "a", "", none⟩, ⟨"2", 2, 4, "b", "", none⟩]).2.1
    ⟨"1", 0, 2, "a", "", none⟩ (by decide)

end VietsubApp
